import Mathlib

/-!
Verification of the kfather streaming JSON parser (include/kfather/parser.hpp).

The repository ships the public header of the `kfather::parser` class; the
grammar engine and the string-literal decode context declared there are
modelled here from the specification, faithfully to its grammar productions,
event registry and error policy.  Input is a byte sequence (`List Nat`), the
cursor is represented by the remaining suffix of the input, and failure
carries the suffix starting at the first invalid byte, from which the byte
offset of the error is recovered at the top level.
-/

namespace KFather


/-- Modelled from the spec: the whitespace test of `parser::skip_whitespace`
(space, tab, newline, carriage return and no other characters). -/
def isWs (c : Nat) : Bool := c == 32 || c == 9 || c == 10 || c == 13

/-- Decimal digit test used by the number production. -/
def isDigit (c : Nat) : Bool := 48 ≤ c && c ≤ 57

/-- Hexadecimal digit test used by the `\u` escape. -/
def isHex (c : Nat) : Bool := isDigit c || (65 ≤ c && c ≤ 70) || (97 ≤ c && c ≤ 102)

/-- Numeric value of a hexadecimal digit. -/
def hexVal (c : Nat) : Nat := if isDigit c then c - 48 else if c ≤ 70 then c - 55 else c - 87

/-- UTF-8 encoding of a unicode code point, as emitted by the decode context. -/
def utf8Encode (cp : Nat) : List Nat :=
  if cp < 0x80 then [cp]
  else if cp < 0x800 then [0xC0 + cp / 0x40, 0x80 + cp % 0x40]
  else if cp < 0x10000 then [0xE0 + cp / 0x1000, 0x80 + cp / 0x40 % 0x40, 0x80 + cp % 0x40]
  else [0xF0 + cp / 0x40000, 0x80 + cp / 0x1000 % 0x40, 0x80 + cp / 0x40 % 0x40, 0x80 + cp % 0x40]

/-- Modelled from the spec: the state of `parser::context`, the decode context
of one string literal (the implementation behind the header's declaration is
not in the repository sources).  `buf` is the accumulated decoded output and
`pending` an optional pending UTF-16 high surrogate awaiting its low half. -/
structure context where
  buf : List Nat
  pending : Option Nat
deriving DecidableEq

/-- Modelled from the spec: `context::clear` resets the output buffer and drops
any pending high surrogate; called at the start of every string literal. -/
def context.clear (_ : context) : context := ⟨[], none⟩

/-- The cleared decode context a string literal starts from. -/
def context.init : context := ⟨[], none⟩

/-- Modelled from the spec: `context::end_codepoints` flushes a pending high
surrogate as its unpaired 3-byte UTF-8 encoding (the deterministic fallback of
the spec's unpaired-surrogate policy). -/
def context.end_codepoints (ctx : context) : context :=
  match ctx.pending with
  | none => ctx
  | some h => ⟨ctx.buf ++ utf8Encode h, none⟩

/-- Modelled from the spec: `context::push_char` appends a literal byte after
resolving any pending high surrogate as an unpaired surrogate. -/
def context.push_char (ctx : context) (c : Nat) : context :=
  ⟨ctx.end_codepoints.buf ++ [c], none⟩

/-- Modelled from the spec: `context::push_codepoint` receives one decoded
`\uXXXX` 16-bit unit and implements the surrogate pairing rules. -/
def context.push_codepoint (ctx : context) (u : Nat) : context :=
  match ctx.pending with
  | none =>
    if 0xD800 ≤ u ∧ u ≤ 0xDBFF then ⟨ctx.buf, some u⟩
    else ⟨ctx.buf ++ utf8Encode u, none⟩
  | some h =>
    if 0xDC00 ≤ u ∧ u ≤ 0xDFFF then
      ⟨ctx.buf ++ utf8Encode (0x10000 + (h - 0xD800) * 0x400 + (u - 0xDC00)), none⟩
    else if 0xD800 ≤ u ∧ u ≤ 0xDBFF then ⟨ctx.buf ++ utf8Encode h, some u⟩
    else ⟨ctx.buf ++ utf8Encode h ++ utf8Encode u, none⟩

/-- Modelled from the spec: `context::str` returns the accumulated decoded
byte sequence. -/
def context.str (ctx : context) : List Nat := ctx.buf

/-- Modelled from the spec: the events the engine can emit, one per optional
callback of the registry (structural punctuation and decoded leaf values; the
number event carries the exact matched character range of the literal). -/
inductive Event where
  | object_start | object_colon | object_comma | object_stop
  | array_start | array_comma | array_stop
  | str (s : List Nat)
  | num (raw : List Nat)
  | boolean (b : Bool)
  | nullv
deriving DecidableEq

/-- Modelled from the spec: `parser::skip_whitespace` consumes zero or more of
the four whitespace bytes and never fails. -/
def skip_whitespace : List Nat → List Nat
  | [] => []
  | c :: t => if isWs c then skip_whitespace t else c :: t

/-- Modelled from the spec: the loop of `parser::parse_string` over the bytes
of a string literal body (after the opening quote).  An unescaped byte other
than the quote, the backslash and control bytes below 0x20 is appended; the
eight single-character escapes map to their literal byte; `\u` requires four
hexadecimal digits feeding `push_codepoint`; any other escape character is an
error at the backslash; reaching the end before the closing quote is an error
at the end.  On the closing quote the decoded sequence is produced. -/
def parse_string_body (ctx : context) : List Nat → Except (List Nat) (List Nat × List Nat)
  | [] => .error []
  | c :: t =>
    if c == 34 then .ok (ctx.end_codepoints.str, t)
    else if c == 92 then
      match t with
      | [] => .error []
      | e :: t2 =>
        if e == 34 then parse_string_body (ctx.push_char 34) t2
        else if e == 92 then parse_string_body (ctx.push_char 92) t2
        else if e == 47 then parse_string_body (ctx.push_char 47) t2
        else if e == 98 then parse_string_body (ctx.push_char 8) t2
        else if e == 102 then parse_string_body (ctx.push_char 12) t2
        else if e == 110 then parse_string_body (ctx.push_char 10) t2
        else if e == 114 then parse_string_body (ctx.push_char 13) t2
        else if e == 116 then parse_string_body (ctx.push_char 9) t2
        else if e == 117 then
          match t2 with
          | [] => .error []
          | a :: ta =>
            if isHex a then
              match ta with
              | [] => .error []
              | b :: tb =>
                if isHex b then
                  match tb with
                  | [] => .error []
                  | c2 :: tc =>
                    if isHex c2 then
                      match tc with
                      | [] => .error []
                      | d :: td =>
                        if isHex d then
                          parse_string_body
                            (ctx.push_codepoint
                              (((hexVal a * 16 + hexVal b) * 16 + hexVal c2) * 16 + hexVal d)) td
                        else .error (d :: td)
                    else .error (c2 :: tc)
                else .error (b :: tb)
            else .error (a :: ta)
        else .error (c :: e :: t2)
    else if c < 32 then .error (c :: t)
    else parse_string_body (ctx.push_char c) t

/-- Modelled from the spec: `parser::parse_string` consumes the opening quote
and decodes the literal body with a freshly cleared decode context. -/
def parse_string (l : List Nat) : Except (List Nat) (List Nat × List Nat) :=
  match l with
  | c :: t => if c == 34 then parse_string_body context.init t else .error (c :: t)
  | [] => .error []

/-- Longest run of decimal digits at the head of the input. -/
def takeDigits : List Nat → List Nat × List Nat
  | [] => ([], [])
  | c :: t =>
    if isDigit c then
      let p := takeDigits t
      (c :: p.1, p.2)
    else ([], c :: t)

/-- Modelled from the spec: the integer part of the number production; a `0`
alone, or a non-zero digit followed by digits.  Leading zeros other than a
bare `0` are thereby rejected (the maximal match stops after the `0`). -/
def parse_int_part : List Nat → Except (List Nat) (List Nat × List Nat)
  | [] => .error []
  | c :: t =>
    if c == 48 then .ok ([48], t)
    else if isDigit c then
      let p := takeDigits t
      .ok (c :: p.1, p.2)
    else .error (c :: t)

/-- Modelled from the spec: the optional fractional part of the number
production; a `.` must be followed by one or more digits. -/
def parse_frac_part : List Nat → Except (List Nat) (List Nat × List Nat)
  | [] => .ok ([], [])
  | c :: t =>
    if c == 46 then
      match t with
      | [] => .error []
      | d :: t2 =>
        if isDigit d then
          let p := takeDigits t2
          .ok (46 :: d :: p.1, p.2)
        else .error (d :: t2)
    else .ok ([], c :: t)

/-- Modelled from the spec: the optional exponent part of the number
production; `e` or `E`, an optional sign, then one or more digits. -/
def parse_exp_part : List Nat → Except (List Nat) (List Nat × List Nat)
  | [] => .ok ([], [])
  | c :: t =>
    if c == 101 || c == 69 then
      match t with
      | [] => .error []
      | s :: t2 =>
        if s == 43 || s == 45 then
          match t2 with
          | [] => .error []
          | d :: t3 =>
            if isDigit d then
              let p := takeDigits t3
              .ok (c :: s :: d :: p.1, p.2)
            else .error (d :: t3)
        else if isDigit s then
          let p := takeDigits t2
          .ok (c :: s :: p.1, p.2)
        else .error (s :: t2)
    else .ok ([], c :: t)

/-- The integer, fractional and exponent parts of the number production in
sequence, after the optional sign has been consumed. -/
def parse_number_tail (sign : List Nat) (s : List Nat) :
    Except (List Nat) (List Nat × List Nat) :=
  match parse_int_part s with
  | .error r => .error r
  | .ok (ip, r1) =>
    match parse_frac_part r1 with
    | .error r => .error r
    | .ok (fp, r2) =>
      match parse_exp_part r2 with
      | .error r => .error r
      | .ok (ep, r3) => .ok (sign ++ ip ++ fp ++ ep, r3)

/-- Modelled from the spec: `parser::parse_number` matches an optional leading
minus, the integer part, then the optional fractional and exponent parts, and
returns the exact matched character range together with the rest. -/
def parse_number (l : List Nat) : Except (List Nat) (List Nat × List Nat) :=
  if l.head? = some 45 then parse_number_tail [45] l.tail else parse_number_tail [] l

/-- Exact keyword match; a mismatch is an error at the first differing
character, truncation an error at the end. -/
def match_lit : List Nat → List Nat → Except (List Nat) (List Nat)
  | [], l => .ok l
  | _ :: _, [] => .error []
  | k :: ks, c :: t => if c == k then match_lit ks t else .error (c :: t)

/-- Modelled from the spec: `parser::parse_true`, exact match of `true`. -/
def parse_true (l : List Nat) : Except (List Nat) (List Nat) :=
  match_lit [116, 114, 117, 101] l

/-- Modelled from the spec: `parser::parse_false`, exact match of `false`. -/
def parse_false (l : List Nat) : Except (List Nat) (List Nat) :=
  match_lit [102, 97, 108, 115, 101] l

/-- Modelled from the spec: `parser::parse_null`, exact match of `null`. -/
def parse_null (l : List Nat) : Except (List Nat) (List Nat) :=
  match_lit [110, 117, 108, 108] l

mutual

/-- Modelled from the spec: `parser::parse_value`, the dispatch of the value
production on the first non-whitespace character, together with the object and
array productions it opens.  The fuel argument only bounds the recursion depth
and is chosen large enough at the top level. -/
def parse_value : Nat → List Nat → Except (List Nat) (List Event × List Nat)
  | 0, l => .error l
  | f + 1, l =>
    match skip_whitespace l with
    | [] => .error []
    | c :: t =>
      if c == 123 then
        match skip_whitespace t with
        | 125 :: r => .ok ([.object_start, .object_stop], r)
        | s1 =>
          match parse_members f s1 with
          | .error r => .error r
          | .ok (mes, r) => .ok (.object_start :: mes, r)
      else if c == 91 then
        match skip_whitespace t with
        | 93 :: r => .ok ([.array_start, .array_stop], r)
        | s1 =>
          match parse_elements f s1 with
          | .error r => .error r
          | .ok (ees, r) => .ok (.array_start :: ees, r)
      else if c == 34 then
        match parse_string (c :: t) with
        | .error r => .error r
        | .ok (s, r) => .ok ([.str s], r)
      else if c == 116 then
        match parse_true (c :: t) with
        | .error r => .error r
        | .ok r => .ok ([.boolean true], r)
      else if c == 102 then
        match parse_false (c :: t) with
        | .error r => .error r
        | .ok r => .ok ([.boolean false], r)
      else if c == 110 then
        match parse_null (c :: t) with
        | .error r => .error r
        | .ok r => .ok ([.nullv], r)
      else
        match parse_number (c :: t) with
        | .error r => .error r
        | .ok (raw, r) => .ok ([.num raw], r)

/-- Modelled from the spec: the member loop of `parser::parse_object` after
the opening brace, emitting the key string, the colon, the value events and a
comma per further member, and the object-stop on the closing brace. -/
def parse_members : Nat → List Nat → Except (List Nat) (List Event × List Nat)
  | 0, l => .error l
  | f + 1, l =>
    match parse_string (skip_whitespace l) with
    | .error r => .error r
    | .ok (key, r1) =>
      match skip_whitespace r1 with
      | 58 :: r2 =>
        match parse_value f r2 with
        | .error r => .error r
        | .ok (ves, r3) =>
          match skip_whitespace r3 with
          | 44 :: r4 =>
            match parse_members f r4 with
            | .error r => .error r
            | .ok (mes, r5) =>
              .ok (.str key :: .object_colon :: ves ++ .object_comma :: mes, r5)
          | 125 :: r4 => .ok (.str key :: .object_colon :: ves ++ [.object_stop], r4)
          | r => .error r
      | r => .error r

/-- Modelled from the spec: the element loop of `parser::parse_array` after
the opening bracket, emitting the value events, a comma per further element,
and the array-stop on the closing bracket. -/
def parse_elements : Nat → List Nat → Except (List Nat) (List Event × List Nat)
  | 0, l => .error l
  | f + 1, l =>
    match parse_value f l with
    | .error r => .error r
    | .ok (ves, r1) =>
      match skip_whitespace r1 with
      | 44 :: r2 =>
        match parse_elements f r2 with
        | .error r => .error r
        | .ok (ees, r3) => .ok (ves ++ .array_comma :: ees, r3)
      | 93 :: r2 => .ok (ves ++ [.array_stop], r2)
      | r => .error r

end

/-- Modelled from the spec: the private range overload `parser::parse`; skip
leading whitespace, parse exactly one value, skip trailing whitespace and
require the cursor to equal the end; on failure the zero-based byte offset of
the first invalid character is reported (the input length when the end was
reached before the parse could complete). -/
def parse (l : List Nat) : Except Nat (List Event) :=
  match parse_value (2 * l.length + 2) l with
  | .error r => .error (l.length - r.length)
  | .ok (es, r) =>
    match skip_whitespace r with
    | [] => .ok es
    | r2 => .error (l.length - r2.length)

/-- The eight recognized single-character escapes, paired with the literal
byte each maps to. -/
def escape_pairs : List (Nat × Nat) :=
  [(34, 34), (92, 92), (47, 47), (98, 8), (102, 12), (110, 10), (114, 13), (116, 9)]

/-- Modelled from the header's thirteen `reset_*_callback` members and the
spec's callback registry: which of the eleven optional event handlers are set.
A set handler receives its event; an unset handler is a no-op. -/
structure callback_registry where
  on_object_start : Bool
  on_object_colon : Bool
  on_object_comma : Bool
  on_object_stop : Bool
  on_array_start : Bool
  on_array_comma : Bool
  on_array_stop : Bool
  on_string : Bool
  on_number : Bool
  on_boolean : Bool
  on_null : Bool
deriving DecidableEq

/-- Whether the registry has a handler set for the kind of an event. -/
def event_enabled (reg : callback_registry) : Event → Bool
  | .object_start => reg.on_object_start
  | .object_colon => reg.on_object_colon
  | .object_comma => reg.on_object_comma
  | .object_stop => reg.on_object_stop
  | .array_start => reg.on_array_start
  | .array_comma => reg.on_array_comma
  | .array_stop => reg.on_array_stop
  | .str _ => reg.on_string
  | .num _ => reg.on_number
  | .boolean _ => reg.on_boolean
  | .nullv => reg.on_null

/-- The registry with no handler set: structural-only validation. -/
def no_callbacks : callback_registry :=
  ⟨false, false, false, false, false, false, false, false, false, false, false⟩

/-- The registry with every handler set. -/
def all_callbacks : callback_registry :=
  ⟨true, true, true, true, true, true, true, true, true, true, true⟩

/-- Modelled from the spec: a run of the parser with a callback registry.  The
engine invokes a handler exactly when a production matches and that handler is
set, so the delivered events are the emitted events whose handler is set; the
parse result itself never consults the registry (callbacks are a side
channel, never control flow). -/
def run_with_callbacks (reg : callback_registry) (l : List Nat) : Except Nat (List Event) :=
  match parse l with
  | .ok es => .ok (es.filter (event_enabled reg))
  | .error e => .error e

/-- Modelled from the header: the overload
`parse(const char* buf, size_t buflen, const char** error_token)` on the bytes
of the buffer; the success flag plus, on failure, the zero-based offset the
error token pointer designates within the buffer. -/
def parse_char_buffer (buf : List Nat) : Bool × Option Nat :=
  match parse buf with
  | .ok _ => (true, none)
  | .error e => (false, some e)

/-- Modelled from the header: the overload
`parse(const std::string& str, std::string::size_type* error_pos)` on the
bytes of the string; the success flag plus, on failure, the failing
position. -/
def parse_std_string (s : List Nat) : Bool × Option Nat :=
  match parse s with
  | .ok _ => (true, none)
  | .error e => (false, some e)

/-- Modelled from the header: the overload
`parse(std::istream& is, size_t* error_pos)` on the byte sequence the stream
yields; the success flag plus, on failure, the failing position. -/
def parse_istream (s : List Nat) : Bool × Option Nat :=
  match parse s with
  | .ok _ => (true, none)
  | .error e => (false, some e)

/-- Modelled from the header: one call of `parser::parse` observed through its
caller-supplied error output.  `cell` holds the contents of the error slot
before the call, with `none` modelling a null error output pointer.  The
result is the success flag together with the slot contents after the call: the
header documents that on success the slot is guaranteed not to be modified,
and that on failure it receives the error position exactly when the pointer is
not null. -/
def parse_with_error_slot (l : List Nat) (cell : Option Nat) : Bool × Option Nat :=
  match parse l with
  | .ok _ => (true, cell)
  | .error e => (false, match cell with | none => none | some _ => some e)

/-- The remaining input carried by a parse result, for both outcomes. -/
def rest_of {β : Type} : Except (List Nat) (β × List Nat) → List Nat
  | .error r => r
  | .ok (_, r) => r

/-- The remaining input carried by a keyword-match result. -/
def lit_rest : Except (List Nat) (List Nat) → List Nat
  | .error r => r
  | .ok r => r

/-- One parse result extends another after the input grows by `u` on the
right, provided the first did not stop by exhausting its input. -/
def extends_to {β : Type} (u : List Nat) :
    Except (List Nat) (β × List Nat) → Except (List Nat) (β × List Nat) → Prop
  | .error r, y => r ≠ [] → y = .error (r ++ u)
  | .ok (a, r), y => r ≠ [] → y = .ok (a, r ++ u)

/-- Whether the input starts with a byte that cannot continue a digit run. -/
def nodig : List Nat → Bool
  | [] => true
  | c :: _ => !isDigit c

/-- Whether the input starts with a byte that cannot continue a number
production: no digit, no decimal point, no exponent marker. -/
def tail_ok : List Nat → Bool
  | [] => true
  | c :: _ => !isDigit c && c != 46 && c != 101 && c != 69

/-- Whether the input starts with a byte other than the decimal point. -/
def nondot : List Nat → Bool
  | [] => true
  | c :: _ => c != 46

/-- Whether the input starts with a byte other than an exponent marker. -/
def noexp : List Nat → Bool
  | [] => true
  | c :: _ => c != 101 && c != 69

/-- Whether a byte can open the value production: a structural opener, a
keyword head, a quote, a minus or a digit. -/
def value_start (c : Nat) : Bool :=
  c == 123 || c == 91 || c == 34 || c == 116 || c == 102 || c == 110 ||
    c == 45 || isDigit c

/-- One item of a string-literal body in source form: an unescaped byte, a
single-character escape (carrying the escape character) or a `\u` escape
carrying its four hexadecimal digits. -/
inductive StrItem : Type where
  | raw (c : Nat)
  | esc (e : Nat)
  | escU (a b c d : Nat)

/-- Validity of a string item under the string production. -/
def StrItem.wf : StrItem → Bool
  | .raw c => decide (32 ≤ c) && c != 34 && c != 92
  | .esc e =>
    e == 34 || e == 92 || e == 47 || e == 98 || e == 102 || e == 110 ||
      e == 114 || e == 116
  | .escU a b c d => isHex a && isHex b && isHex c && isHex d

/-- Source bytes of a string item. -/
def StrItem.render : StrItem → List Nat
  | .raw c => [c]
  | .esc e => [92, e]
  | .escU a b c d => [92, 117, a, b, c, d]

/-- The literal byte a recognized single-character escape maps to. -/
def esc_byte (e : Nat) : Nat :=
  if e == 34 then 34 else if e == 92 then 92 else if e == 47 then 47
  else if e == 98 then 8 else if e == 102 then 12 else if e == 110 then 10
  else if e == 114 then 13 else 9

/-- Feeding one string item to the decode context, as the string production
does. -/
def StrItem.push (ctx : context) : StrItem → context
  | .raw c => ctx.push_char c
  | .esc e => ctx.push_char (esc_byte e)
  | .escU a b c d =>
    ctx.push_codepoint (((hexVal a * 16 + hexVal b) * 16 + hexVal c) * 16 + hexVal d)

/-- Source bytes of a string-literal body. -/
def render_items (items : List StrItem) : List Nat :=
  items.foldr (fun it acc => it.render ++ acc) []

/-- The decoded byte sequence of a string-literal body: all items fed to a
fresh decode context, then the end-of-codepoints flush. -/
def decode_str (items : List StrItem) : List Nat :=
  ((items.foldl StrItem.push context.init).end_codepoints).str

/-- A number literal of the number production, split into its grammatical
parts: sign, integer head and following digits, optional fractional digits,
optional exponent (marker, optional sign, digits). -/
structure NumLit : Type where
  neg : Bool
  ihead : Nat
  itail : List Nat
  frac : Option (Nat × List Nat)
  exps : Option (Nat × Option Nat × Nat × List Nat)

/-- Validity of a number literal under the number production: digits are
digits, a `0` head stands alone, the exponent marker is `e` or `E` and an
exponent sign is `+` or `-`. -/
def NumLit.wf (n : NumLit) : Bool :=
  isDigit n.ihead && (!(n.ihead == 48) || n.itail.isEmpty) && n.itail.all isDigit &&
    (match n.frac with
     | none => true
     | some (d, ds) => isDigit d && ds.all isDigit) &&
    (match n.exps with
     | none => true
     | some (m, sg, d, ds) =>
       (m == 101 || m == 69) &&
         (match sg with | none => true | some s => s == 43 || s == 45) &&
         isDigit d && ds.all isDigit)

/-- Source bytes of the sign of a number literal. -/
def NumLit.signstr (n : NumLit) : List Nat := if n.neg then [45] else []

/-- Source bytes of the integer part of a number literal. -/
def NumLit.intstr (n : NumLit) : List Nat := n.ihead :: n.itail

/-- Source bytes of the fractional part of a number literal. -/
def NumLit.fracstr (n : NumLit) : List Nat :=
  match n.frac with
  | none => []
  | some (d, ds) => 46 :: d :: ds

/-- Source bytes of the exponent part of a number literal. -/
def NumLit.expstr (n : NumLit) : List Nat :=
  match n.exps with
  | none => []
  | some (m, sg, d, ds) =>
    m :: ((match sg with | none => [] | some s => [s]) ++ d :: ds)

/-- Source bytes of a number literal. -/
def NumLit.render (n : NumLit) : List Nat :=
  n.signstr ++ n.intstr ++ n.fracstr ++ n.expstr

mutual

/-- A syntactically valid JSON document in source form, with an explicit
whitespace field at every whitespace-permitted position the grammar has:
before each value, after `[` and `{`, and (through `JElems`/`JMembs`) around
the separators, keys and closing brackets. -/
inductive JDoc : Type where
  | jnull (w : List Nat)
  | jtrue (w : List Nat)
  | jfalse (w : List Nat)
  | jnum (w : List Nat) (n : NumLit)
  | jstr (w : List Nat) (items : List StrItem)
  | jarr0 (w w2 : List Nat)
  | jarr (w w2 : List Nat) (es : JElems)
  | jobj0 (w w2 : List Nat)
  | jobj (w w2 : List Nat) (ms : JMembs)

/-- The non-empty element list of an array, with the whitespace after each
element. -/
inductive JElems : Type where
  | last (v : JDoc) (w : List Nat)
  | more (v : JDoc) (w : List Nat) (es : JElems)

/-- The non-empty member list of an object, with the whitespace around the
key, the colon and the value. -/
inductive JMembs : Type where
  | last (wk : List Nat) (key : List StrItem) (wc : List Nat) (v : JDoc) (w : List Nat)
  | more (wk : List Nat) (key : List StrItem) (wc : List Nat) (v : JDoc) (w : List Nat)
      (ms : JMembs)

end

mutual

/-- Validity of a document: every whitespace field holds whitespace bytes
only and every literal satisfies its production. -/
def JDoc.wf : JDoc → Bool
  | .jnull w => w.all isWs
  | .jtrue w => w.all isWs
  | .jfalse w => w.all isWs
  | .jnum w n => w.all isWs && n.wf
  | .jstr w items => w.all isWs && items.all StrItem.wf
  | .jarr0 w w2 => w.all isWs && w2.all isWs
  | .jarr w w2 es => w.all isWs && w2.all isWs && es.wf
  | .jobj0 w w2 => w.all isWs && w2.all isWs
  | .jobj w w2 ms => w.all isWs && w2.all isWs && ms.wf

/-- Validity of an element list. -/
def JElems.wf : JElems → Bool
  | .last v w => v.wf && w.all isWs
  | .more v w es => v.wf && w.all isWs && es.wf

/-- Validity of a member list. -/
def JMembs.wf : JMembs → Bool
  | .last wk key wc v w =>
    wk.all isWs && key.all StrItem.wf && wc.all isWs && v.wf && w.all isWs
  | .more wk key wc v w ms =>
    wk.all isWs && key.all StrItem.wf && wc.all isWs && v.wf && w.all isWs && ms.wf

end

mutual

/-- Source bytes of a document. -/
def JDoc.render : JDoc → List Nat
  | .jnull w => w ++ [110, 117, 108, 108]
  | .jtrue w => w ++ [116, 114, 117, 101]
  | .jfalse w => w ++ [102, 97, 108, 115, 101]
  | .jnum w n => w ++ n.render
  | .jstr w items => w ++ 34 :: (render_items items ++ [34])
  | .jarr0 w w2 => w ++ 91 :: (w2 ++ [93])
  | .jarr w w2 es => w ++ 91 :: (w2 ++ es.render)
  | .jobj0 w w2 => w ++ 123 :: (w2 ++ [125])
  | .jobj w w2 ms => w ++ 123 :: (w2 ++ ms.render)

/-- Source bytes of an element list, up to and including the closing
bracket. -/
def JElems.render : JElems → List Nat
  | .last v w => v.render ++ (w ++ [93])
  | .more v w es => v.render ++ (w ++ 44 :: es.render)

/-- Source bytes of a member list, up to and including the closing brace. -/
def JMembs.render : JMembs → List Nat
  | .last wk key wc v w =>
    wk ++ 34 :: (render_items key ++ 34 :: (wc ++ 58 :: (v.render ++ (w ++ [125]))))
  | .more wk key wc v w ms =>
    wk ++ 34 :: (render_items key ++ 34 :: (wc ++ 58 :: (v.render ++ (w ++ 44 :: ms.render))))

end

mutual

/-- The event sequence a document emits. -/
def JDoc.events : JDoc → List Event
  | .jnull _ => [.nullv]
  | .jtrue _ => [.boolean true]
  | .jfalse _ => [.boolean false]
  | .jnum _ n => [.num n.render]
  | .jstr _ items => [.str (decode_str items)]
  | .jarr0 _ _ => [.array_start, .array_stop]
  | .jarr _ _ es => .array_start :: es.events
  | .jobj0 _ _ => [.object_start, .object_stop]
  | .jobj _ _ ms => .object_start :: ms.events

/-- The event sequence an element list emits. -/
def JElems.events : JElems → List Event
  | .last v _ => v.events ++ [.array_stop]
  | .more v _ es => v.events ++ .array_comma :: es.events

/-- The event sequence a member list emits. -/
def JMembs.events : JMembs → List Event
  | .last _ key _ v _ =>
    .str (decode_str key) :: .object_colon :: v.events ++ [.object_stop]
  | .more _ key _ v _ ms =>
    .str (decode_str key) :: .object_colon :: v.events ++ .object_comma :: ms.events

end

mutual

/-- The same document with every whitespace field emptied. -/
def JDoc.strip : JDoc → JDoc
  | .jnull _ => .jnull []
  | .jtrue _ => .jtrue []
  | .jfalse _ => .jfalse []
  | .jnum _ n => .jnum [] n
  | .jstr _ items => .jstr [] items
  | .jarr0 _ _ => .jarr0 [] []
  | .jarr _ _ es => .jarr [] [] es.strip
  | .jobj0 _ _ => .jobj0 [] []
  | .jobj _ _ ms => .jobj [] [] ms.strip

/-- The same element list with every whitespace field emptied. -/
def JElems.strip : JElems → JElems
  | .last v _ => .last v.strip []
  | .more v _ es => .more v.strip [] es.strip

/-- The same member list with every whitespace field emptied. -/
def JMembs.strip : JMembs → JMembs
  | .last _ key _ v _ => .last [] key [] v.strip []
  | .more _ key _ v _ ms => .more [] key [] v.strip [] ms.strip

end

mutual

/-- The event sequences a complete value emits: balanced and correctly
nested, each start matched by its stop at the same depth. -/
inductive ValueEv : List Event → Prop where
  | nullv : ValueEv [.nullv]
  | bool (b : Bool) : ValueEv [.boolean b]
  | num (raw : List Nat) : ValueEv [.num raw]
  | str (s : List Nat) : ValueEv [.str s]
  | obj0 : ValueEv [.object_start, .object_stop]
  | obj {mes : List Event} : MembEv mes → ValueEv (.object_start :: mes)
  | arr0 : ValueEv [.array_start, .array_stop]
  | arr {ees : List Event} : ElemEv ees → ValueEv (.array_start :: ees)

/-- The event sequences the member loop emits: one key string and one colon
per member, a comma between members, a single closing object-stop. -/
inductive MembEv : List Event → Prop where
  | last {k : List Nat} {ves : List Event} :
      ValueEv ves → MembEv (.str k :: .object_colon :: ves ++ [.object_stop])
  | more {k : List Nat} {ves mes : List Event} :
      ValueEv ves → MembEv mes →
      MembEv (.str k :: .object_colon :: ves ++ .object_comma :: mes)

/-- The event sequences the element loop emits: values separated by commas,
a single closing array-stop. -/
inductive ElemEv : List Event → Prop where
  | last {ves : List Event} : ValueEv ves → ElemEv (ves ++ [.array_stop])
  | more {ves ees : List Event} :
      ValueEv ves → ElemEv ees → ElemEv (ves ++ .array_comma :: ees)

end

/-- Concrete sample document: the source text of `{"x": [1, true, null]}`
in document form. -/
def sample_doc : JDoc :=
  .jobj [] []
    (JMembs.last [] [StrItem.raw 120] []
      (.jarr [32] []
        (JElems.more (.jnum [] ⟨false, 49, [], none, none⟩) []
          (JElems.more (.jtrue [32]) []
            (JElems.last (.jnull [32]) []))))
      [])

end KFather

namespace KFather

/-- One-step unfolding of `parse_string_body` on a non-empty input, usable
with a tail of unknown shape. -/
theorem parse_string_body_cons (ctx : context) (c : Nat) (t : List Nat) :
    parse_string_body ctx (c :: t) =
      (if c == 34 then .ok (ctx.end_codepoints.str, t)
      else if c == 92 then
        match t with
        | [] => .error []
        | e :: t2 =>
          if e == 34 then parse_string_body (ctx.push_char 34) t2
          else if e == 92 then parse_string_body (ctx.push_char 92) t2
          else if e == 47 then parse_string_body (ctx.push_char 47) t2
          else if e == 98 then parse_string_body (ctx.push_char 8) t2
          else if e == 102 then parse_string_body (ctx.push_char 12) t2
          else if e == 110 then parse_string_body (ctx.push_char 10) t2
          else if e == 114 then parse_string_body (ctx.push_char 13) t2
          else if e == 116 then parse_string_body (ctx.push_char 9) t2
          else if e == 117 then
            match t2 with
            | [] => .error []
            | a :: ta =>
              if isHex a then
                match ta with
                | [] => .error []
                | b :: tb =>
                  if isHex b then
                    match tb with
                    | [] => .error []
                    | c2 :: tc =>
                      if isHex c2 then
                        match tc with
                        | [] => .error []
                        | d :: td =>
                          if isHex d then
                            parse_string_body
                              (ctx.push_codepoint
                                (((hexVal a * 16 + hexVal b) * 16 + hexVal c2) * 16 + hexVal d)) td
                          else .error (d :: td)
                      else .error (c2 :: tc)
                  else .error (b :: tb)
              else .error (a :: ta)
          else .error (c :: e :: t2)
      else if c < 32 then .error (c :: t)
      else parse_string_body (ctx.push_char c) t) := by
  cases t with
  | nil => rfl
  | cons e t2 =>
    cases t2 with
    | nil => rfl
    | cons a ta =>
      cases ta with
      | nil => rfl
      | cons b tb =>
        cases tb with
        | nil => rfl
        | cons c2 tc =>
          cases tc with
          | nil => rfl
          | cons d td => rfl

/-- C2: the number production accepts exactly the spec's grammar on the ten
test inputs: parsing the byte sequences of the texts 0, -0, 0.5, 1e10 and
-1.5E-3 succeeds, and parsing 01, .5, 1., 1e and +1 fails with the reported
offset equal to the offset of the first disallowed character. -/
theorem number_grammar_cases :
    parse [48] = .ok [.num [48]] ∧
    parse [45, 48] = .ok [.num [45, 48]] ∧
    parse [48, 46, 53] = .ok [.num [48, 46, 53]] ∧
    parse [49, 101, 49, 48] = .ok [.num [49, 101, 49, 48]] ∧
    parse [45, 49, 46, 53, 69, 45, 51] = .ok [.num [45, 49, 46, 53, 69, 45, 51]] ∧
    parse [48, 49] = .error 1 ∧
    parse [46, 53] = .error 0 ∧
    parse [49, 46] = .error 2 ∧
    parse [49, 101] = .error 2 ∧
    parse [43, 49] = .error 0 := by
  refine ⟨rfl, rfl, rfl, rfl, rfl, rfl, rfl, rfl, rfl, rfl⟩

/-- C3: feeding the decode context the two escape units of a high surrogate
0xD83D followed by the low surrogate 0xDE00 produces exactly the 4-byte UTF-8
encoding of the combined code point U+1F600, and a lone high surrogate flushed
at the end of the string produces the deterministic non-empty 3-byte fallback
encoding; the same holds through a whole string-literal parse of the texts
made of the escapes uD83D uDE00 and of uD83D alone between quotes. -/
theorem surrogate_decoding_cases :
    ((context.init.push_codepoint 0xD83D).push_codepoint 0xDE00).end_codepoints.str
      = [240, 159, 152, 128] ∧
    (context.init.push_codepoint 0xD83D).end_codepoints.str = [237, 160, 189] ∧
    (context.init.push_codepoint 0xD83D).end_codepoints.str ≠ [] ∧
    parse [34, 92, 117, 68, 56, 51, 68, 92, 117, 68, 69, 48, 48, 34]
      = .ok [.str [240, 159, 152, 128]] ∧
    parse [34, 92, 117, 68, 56, 51, 68, 34] = .ok [.str [237, 160, 189]] := by
  refine ⟨rfl, rfl, by decide, rfl, rfl⟩

/-- C4: inside a string literal body, an unescaped byte other than the quote,
the backslash and control bytes below 0x20 is accepted and appended; a control
byte below 0x20 is an error at its offset; each of the eight escapes maps to
its single literal byte; a backslash-u followed by four hexadecimal digits
feeds the combined unit to `push_codepoint`; any other character after a
backslash is an error reported at the backslash's offset; and reaching the end
before the closing quote is an error positioned at the end. -/
theorem string_literal_byte_rules :
    (∀ (ctx : context) (c : Nat) (t : List Nat), 32 ≤ c → c ≠ 34 → c ≠ 92 →
      parse_string_body ctx (c :: t) = parse_string_body (ctx.push_char c) t) ∧
    (∀ (ctx : context) (c : Nat) (t : List Nat), c < 32 →
      parse_string_body ctx (c :: t) = .error (c :: t)) ∧
    (∀ (ctx : context) (t : List Nat) (p : Nat × Nat), p ∈ escape_pairs →
      parse_string_body ctx (92 :: p.1 :: t) = parse_string_body (ctx.push_char p.2) t) ∧
    (∀ (ctx : context) (a b c d : Nat) (t : List Nat),
      isHex a = true → isHex b = true → isHex c = true → isHex d = true →
      parse_string_body ctx (92 :: 117 :: a :: b :: c :: d :: t) =
        parse_string_body
          (ctx.push_codepoint (((hexVal a * 16 + hexVal b) * 16 + hexVal c) * 16 + hexVal d)) t) ∧
    (∀ (ctx : context) (e : Nat) (t : List Nat),
      e ∉ [34, 92, 47, 98, 102, 110, 114, 116, 117] →
      parse_string_body ctx (92 :: e :: t) = .error (92 :: e :: t)) ∧
    (∀ ctx : context, parse_string_body ctx [] = .error []) := by
  refine ⟨?_, ?_, ?_, ?_, ?_, ?_⟩
  · intro ctx c t h32 h34 h92
    have e34 : (c == 34) = false := by simp [h34]
    have e92 : (c == 92) = false := by simp [h92]
    have hlt : ¬ c < 32 := by omega
    rw [parse_string_body_cons]
    simp [e34, e92, hlt]
  · intro ctx c t hlt
    have h34 : c ≠ 34 := by omega
    have h92 : c ≠ 92 := by omega
    have e34 : (c == 34) = false := by simp [h34]
    have e92 : (c == 92) = false := by simp [h92]
    rw [parse_string_body_cons]
    simp [e34, e92, hlt]
  · intro ctx t p hp
    fin_cases hp <;> (rw [parse_string_body_cons]; simp)
  · intro ctx a b c d t ha hb hc hd
    rw [parse_string_body_cons]
    simp [ha, hb, hc, hd]
  · intro ctx e t he
    simp only [List.mem_cons, not_or] at he
    obtain ⟨n34, n92, n47, n98, n102, n110, n114, n116, n117, -⟩ := he
    rw [parse_string_body_cons]
    simp [n34, n92, n47, n98, n102, n110, n114, n116, n117]
  · intro ctx
    rfl

/-- C4 witness: the rules instantiated on concrete bytes: the letter x is
accepted, byte 1 is rejected at its offset, the escape backslash-n appends the
newline byte, backslash-u0041 pushes unit 0x41, backslash-x fails at the
backslash, and the empty body fails at the end. -/
theorem string_literal_byte_rules_witness :
    parse_string_body context.init [120] = parse_string_body (context.init.push_char 120) [] ∧
    parse_string_body context.init [1, 120] = .error [1, 120] ∧
    parse_string_body context.init [92, 110] = parse_string_body (context.init.push_char 10) [] ∧
    parse_string_body context.init [92, 117, 48, 48, 52, 49] =
      parse_string_body (context.init.push_codepoint
        (((hexVal 48 * 16 + hexVal 48) * 16 + hexVal 52) * 16 + hexVal 49)) [] ∧
    parse_string_body context.init [92, 120] = .error [92, 120] ∧
    parse_string_body context.init [] = .error [] :=
  ⟨string_literal_byte_rules.1 context.init 120 [] (by decide) (by decide) (by decide),
   string_literal_byte_rules.2.1 context.init 1 [120] (by decide),
   string_literal_byte_rules.2.2.1 context.init [] (110, 10) (by decide),
   string_literal_byte_rules.2.2.2.1 context.init 48 48 52 49 []
     (by decide) (by decide) (by decide) (by decide),
   string_literal_byte_rules.2.2.2.2.1 context.init 120 [] (by decide),
   string_literal_byte_rules.2.2.2.2.2 context.init⟩

/-- C8: parsing is independent of the callback registry: for every registry
and every input, the run with those handlers and the run with no handlers
registered return the same success flag and, on failure, the same error
offset. -/
theorem callbacks_never_affect_parsing (reg : callback_registry) (l : List Nat) :
    (run_with_callbacks reg l).isOk = (run_with_callbacks no_callbacks l).isOk ∧
    ∀ e : Nat, run_with_callbacks reg l = .error e ↔
      run_with_callbacks no_callbacks l = .error e := by
  cases h : parse l <;> simp [run_with_callbacks, h, Except.isOk, Except.toBool]

/-- C8 witness: the independence instantiated with every handler set on a
failing concrete input. -/
theorem callbacks_never_affect_parsing_witness :
    (run_with_callbacks all_callbacks [43]).isOk = (run_with_callbacks no_callbacks [43]).isOk ∧
    run_with_callbacks all_callbacks [43] = .error 0 :=
  ⟨(callbacks_never_affect_parsing all_callbacks [43]).1,
   ((callbacks_never_affect_parsing all_callbacks [43]).2 0).mpr rfl⟩

/-- C9: the three public parse overloads agree: applied to the same underlying
byte sequence they return the same success flag and, on failure, report the
same zero-based position of the first invalid byte. -/
theorem parse_overloads_agree (l : List Nat) :
    parse_char_buffer l = parse_std_string l ∧ parse_std_string l = parse_istream l :=
  ⟨rfl, rfl⟩

/-- C10: when the parse succeeds, the caller-supplied error slot is left
exactly as it was before the call, whether it held any value or the output
pointer was null; and a null error output pointer is always permitted, the
returned success flag agreeing with the parse result on every input. -/
theorem error_slot_frame_condition (l : List Nat) (v : Nat) :
    ((parse l).isOk = true → parse_with_error_slot l (some v) = (true, some v)) ∧
    ((parse l).isOk = true → parse_with_error_slot l none = (true, none)) ∧
    (parse_with_error_slot l none).1 = (parse l).isOk ∧
    (parse_with_error_slot l (some v)).1 = (parse l).isOk := by
  cases h : parse l <;> simp [parse_with_error_slot, h, Except.isOk, Except.toBool]

/-- C10 witness: the frame condition instantiated on the valid input 0 with
prior slot contents 7, and the null-pointer flag on the invalid input +. -/
theorem error_slot_frame_condition_witness :
    parse_with_error_slot [48] (some 7) = (true, some 7) ∧
    (parse_with_error_slot [43] none).1 = (parse [43]).isOk :=
  ⟨(error_slot_frame_condition [48] 7).1 (by decide),
   (error_slot_frame_condition [43] 7).2.2.1⟩

end KFather

namespace KFather

/-- Whatever whitespace skipping leaves is a suffix of its input. -/
theorem skip_whitespace_suffix (l : List Nat) : skip_whitespace l <:+ l := by
  induction l with
  | nil => exact List.suffix_rfl
  | cons c t ih =>
    simp only [skip_whitespace]
    split
    · exact ih.trans ⟨[_], rfl⟩
    · exact List.suffix_rfl

/-- Whitespace skipping never lengthens the input. -/
theorem skip_whitespace_length (l : List Nat) : (skip_whitespace l).length ≤ l.length :=
  (skip_whitespace_suffix l).length_le

/-- The first byte whitespace skipping stops at is not whitespace. -/
theorem skip_whitespace_head_not_ws {l : List Nat} {c : Nat} {t : List Nat}
    (h : skip_whitespace l = c :: t) : isWs c = false := by
  induction l with
  | nil => simp [skip_whitespace] at h
  | cons a s ih =>
    simp only [skip_whitespace] at h
    split at h
    · exact ih h
    · rename_i hn
      injection h with h1 h2
      subst h1
      simpa using hn

/-- Whitespace skipping removes a leading all-whitespace run. -/
theorem skip_whitespace_ws_append {w l : List Nat} (hw : ∀ c ∈ w, isWs c = true) :
    skip_whitespace (w ++ l) = skip_whitespace l := by
  induction w with
  | nil => rfl
  | cons a s ih =>
    simp only [List.cons_append, skip_whitespace]
    rw [if_pos (hw a (by simp))]
    exact ih fun c hc => hw c (by simp [hc])

/-- Whitespace skipping is idempotent. -/
theorem skip_whitespace_idem (l : List Nat) :
    skip_whitespace (skip_whitespace l) = skip_whitespace l := by
  cases h : skip_whitespace l with
  | nil => rfl
  | cons c t => simp [skip_whitespace, skip_whitespace_head_not_ws h]

/-- The rest of a string-body parse is a suffix of its input. -/
theorem parse_string_body_suffix (ctx : context) (l : List Nat) :
    rest_of (parse_string_body ctx l) <:+ l := by
  induction ctx, l using parse_string_body.induct <;>
    simp_all [parse_string_body_cons, rest_of] <;>
    first
      | rfl
      | exact List.nil_suffix
      | exact List.suffix_cons _ _
      | exact List.IsSuffix.trans (by assumption) ⟨[_], rfl⟩
      | exact List.IsSuffix.trans (by assumption) ⟨[_, _], rfl⟩
      | exact List.IsSuffix.trans (by assumption) ⟨[_, _, _, _, _, _], rfl⟩
      | exact ⟨[_, _], rfl⟩
      | exact ⟨[_, _, _], rfl⟩
      | exact ⟨[_, _, _, _], rfl⟩
      | exact ⟨[_, _, _, _, _], rfl⟩
      | (rw [if_neg (by omega : ¬ _ < 32)]
         exact List.IsSuffix.trans (by assumption) ⟨[_], rfl⟩)
      | exact List.suffix_rfl

/-- A successful string-body parse consumes at least the closing quote. -/
theorem parse_string_body_ok_length (ctx : context) (l : List Nat) :
    ∀ s r, parse_string_body ctx l = .ok (s, r) → r.length < l.length := by
  induction ctx, l using parse_string_body.induct <;> intro s r h <;>
    simp_all [parse_string_body_cons] <;>
    first
      | omega
      | (rename_i ih
         have h2 := ih _ _ (by assumption)
         simp
         omega)
      | (rw [if_neg (by omega : ¬ _ < 32)] at h
         rename_i ih
         have h2 := ih _ _ h
         simp
         omega)
      | simp [parse_string_body] at h

/-- The rest of a string-literal parse is a suffix of its input. -/
theorem parse_string_suffix (l : List Nat) : rest_of (parse_string l) <:+ l := by
  cases l with
  | nil => exact List.suffix_rfl
  | cons c t =>
    simp only [parse_string]
    split
    · exact (parse_string_body_suffix context.init t).trans ⟨[_], rfl⟩
    · exact List.suffix_rfl

/-- A successful string-literal parse consumes at least the two quotes. -/
theorem parse_string_ok_length {l s r : List Nat} (h : parse_string l = .ok (s, r)) :
    r.length + 2 ≤ l.length := by
  match l with
  | [] => simp [parse_string] at h
  | c :: t =>
    simp only [parse_string] at h
    split at h
    · have := parse_string_body_ok_length context.init t s r h
      simp
      omega
    · simp at h

end KFather

namespace KFather

/-- The rest after taking leading digits is a suffix of the input. -/
theorem takeDigits_suffix (l : List Nat) : (takeDigits l).2 <:+ l := by
  induction l with
  | nil => exact List.suffix_rfl
  | cons c t ih =>
    simp only [takeDigits]
    split
    · exact ih.trans ⟨[_], rfl⟩
    · exact List.suffix_rfl

/-- The rest of an integer-part parse is a suffix of its input. -/
theorem parse_int_part_suffix (l : List Nat) : rest_of (parse_int_part l) <:+ l := by
  cases l with
  | nil => exact List.suffix_rfl
  | cons c t =>
    simp only [parse_int_part]
    split
    · exact (List.suffix_cons c t)
    · split
      · exact (takeDigits_suffix t).trans ⟨[_], rfl⟩
      · exact List.suffix_rfl

/-- A successful integer-part parse consumes at least one digit. -/
theorem parse_int_part_ok_length {l ip r : List Nat} (h : parse_int_part l = .ok (ip, r)) :
    r.length < l.length := by
  cases l with
  | nil => simp [parse_int_part] at h
  | cons c t =>
    simp only [parse_int_part] at h
    split at h
    · injection h with h1
      injection h1 with h1 h2
      subst h2
      simp
    · split at h
      · injection h with h1
        injection h1 with h1 h2
        subst h2
        have := (takeDigits_suffix t).length_le
        simp
        omega
      · simp at h

/-- The rest of a fractional-part parse is a suffix of its input. -/
theorem parse_frac_part_suffix (l : List Nat) : rest_of (parse_frac_part l) <:+ l := by
  cases l with
  | nil => exact List.suffix_rfl
  | cons c t =>
    simp only [parse_frac_part]
    split
    · cases t with
      | nil => exact List.nil_suffix
      | cons d t2 =>
        simp only []
        split
        · exact ((takeDigits_suffix t2).trans ⟨[_], rfl⟩).trans ⟨[_], rfl⟩
        · exact ⟨[_], rfl⟩
    · exact List.suffix_rfl

/-- The rest of an exponent-part parse is a suffix of its input. -/
theorem parse_exp_part_suffix (l : List Nat) : rest_of (parse_exp_part l) <:+ l := by
  cases l with
  | nil => exact List.suffix_rfl
  | cons c t =>
    simp only [parse_exp_part]
    split
    · cases t with
      | nil => exact List.nil_suffix
      | cons s t2 =>
        simp only []
        split
        · cases t2 with
          | nil => exact List.nil_suffix
          | cons d t3 =>
            simp only []
            split
            · exact ((takeDigits_suffix t3).trans ⟨[_], rfl⟩).trans ⟨[_, _], rfl⟩
            · exact ⟨[_, _], rfl⟩
        · split
          · exact ((takeDigits_suffix t2).trans ⟨[_], rfl⟩).trans ⟨[_], rfl⟩
          · exact ⟨[_], rfl⟩
    · exact List.suffix_rfl

/-- The rest of the sign-free number parse is a suffix of its input. -/
theorem parse_number_tail_suffix (sign s : List Nat) :
    rest_of (parse_number_tail sign s) <:+ s := by
  simp only [parse_number_tail]
  split
  · rename_i r hi
    have := parse_int_part_suffix s
    rw [hi] at this
    exact this
  · rename_i ip r1 hi
    have h1 : r1 <:+ s := by
      have := parse_int_part_suffix s
      rw [hi] at this
      exact this
    split
    · rename_i r hf
      have := parse_frac_part_suffix r1
      rw [hf] at this
      exact this.trans h1
    · rename_i fp r2 hf
      have h2 : r2 <:+ r1 := by
        have := parse_frac_part_suffix r1
        rw [hf] at this
        exact this
      split
      · rename_i r he
        have := parse_exp_part_suffix r2
        rw [he] at this
        exact (this.trans h2).trans h1
      · rename_i ep r3 he
        have h3 : r3 <:+ r2 := by
          have := parse_exp_part_suffix r2
          rw [he] at this
          exact this
        exact (h3.trans h2).trans h1

/-- A successful sign-free number parse consumes at least one byte. -/
theorem parse_number_tail_ok_length {sign s raw r : List Nat}
    (h : parse_number_tail sign s = .ok (raw, r)) : r.length < s.length := by
  simp only [parse_number_tail] at h
  split at h
  · simp at h
  · rename_i ip r1 hi
    have h1 : r1.length < s.length := parse_int_part_ok_length hi
    split at h
    · simp at h
    · rename_i fp r2 hf
      have h2 : r2.length ≤ r1.length := by
        have := parse_frac_part_suffix r1
        rw [hf] at this
        exact this.length_le
      split at h
      · simp at h
      · rename_i ep r3 he
        have h3 : r3.length ≤ r2.length := by
          have := parse_exp_part_suffix r2
          rw [he] at this
          exact this.length_le
        injection h with h4
        injection h4 with h4 h5
        subst h5
        omega

/-- The rest of a number parse is a suffix of its input. -/
theorem parse_number_suffix (l : List Nat) : rest_of (parse_number l) <:+ l := by
  have tail_suffix : l.tail <:+ l := by
    cases l with
    | nil => exact List.suffix_rfl
    | cons c t => exact ⟨[_], rfl⟩
  simp only [parse_number]
  split
  · exact (parse_number_tail_suffix [45] l.tail).trans tail_suffix
  · exact parse_number_tail_suffix [] l

/-- A successful number parse consumes at least one byte. -/
theorem parse_number_ok_length {l raw r : List Nat} (h : parse_number l = .ok (raw, r)) :
    r.length < l.length := by
  simp only [parse_number] at h
  split at h
  · rename_i h45
    have := parse_number_tail_ok_length h
    cases l with
    | nil => simp at h45
    | cons c t => simp at this ⊢; omega
  · exact parse_number_tail_ok_length h

/-- The rest of a keyword match is a suffix of its input. -/
theorem match_lit_suffix (k l : List Nat) : lit_rest (match_lit k l) <:+ l := by
  induction k generalizing l with
  | nil => exact List.suffix_rfl
  | cons a ks ih =>
    cases l with
    | nil => exact List.suffix_rfl
    | cons c t =>
      simp only [match_lit]
      split
      · exact (ih t).trans ⟨[_], rfl⟩
      · exact List.suffix_rfl

/-- A successful keyword match consumes exactly the keyword. -/
theorem match_lit_ok_length {k l r : List Nat} (h : match_lit k l = .ok r) :
    r.length + k.length = l.length := by
  induction k generalizing l with
  | nil =>
    simp only [match_lit] at h
    injection h with h1
    subst h1
    simp
  | cons a ks ih =>
    cases l with
    | nil => simp [match_lit] at h
    | cons c t =>
      simp only [match_lit] at h
      split at h
      · have := ih h
        simp
        omega
      · simp at h

end KFather

namespace KFather

/-- Transport of a rest-suffix fact through a known error result. -/
theorem rest_of_err {β : Type} {X : Except (List Nat) (β × List Nat)} {r s : List Nat}
    (h : X = .error r) (hs : rest_of X <:+ s) : r <:+ s := by
  rw [h] at hs
  exact hs

/-- Transport of a rest-suffix fact through a known successful result. -/
theorem rest_of_ok {β : Type} {X : Except (List Nat) (β × List Nat)} {a : β} {r s : List Nat}
    (h : X = .ok (a, r)) (hs : rest_of X <:+ s) : r <:+ s := by
  rw [h] at hs
  exact hs

/-- The rest of the keyword parse of true is a suffix of its input. -/
theorem parse_true_suffix (l : List Nat) : lit_rest (parse_true l) <:+ l :=
  match_lit_suffix _ l

/-- The rest of the keyword parse of false is a suffix of its input. -/
theorem parse_false_suffix (l : List Nat) : lit_rest (parse_false l) <:+ l :=
  match_lit_suffix _ l

/-- The rest of the keyword parse of null is a suffix of its input. -/
theorem parse_null_suffix (l : List Nat) : lit_rest (parse_null l) <:+ l :=
  match_lit_suffix _ l

/-- Transport of a lit-rest-suffix fact through a known error result. -/
theorem lit_rest_err {X : Except (List Nat) (List Nat)} {r s : List Nat}
    (h : X = .error r) (hs : lit_rest X <:+ s) : r <:+ s := by
  rw [h] at hs
  exact hs

/-- Transport of a lit-rest-suffix fact through a known successful result. -/
theorem lit_rest_ok {X : Except (List Nat) (List Nat)} {r s : List Nat}
    (h : X = .ok r) (hs : lit_rest X <:+ s) : r <:+ s := by
  rw [h] at hs
  exact hs

/-- The rest of every grammar-engine result, success or failure, is a suffix
of that production's input. -/
theorem parse_rest_suffix (f : Nat) :
    (∀ l, rest_of (parse_value f l) <:+ l) ∧
    (∀ l, rest_of (parse_members f l) <:+ l) ∧
    (∀ l, rest_of (parse_elements f l) <:+ l) := by
  induction f with
  | zero => exact ⟨fun l => List.suffix_rfl, fun l => List.suffix_rfl, fun l => List.suffix_rfl⟩
  | succ f ih =>
    obtain ⟨ihv, ihm, ihe⟩ := ih
    refine ⟨?_, ?_, ?_⟩
    · intro l
      rw [parse_value.eq_2]
      split
      · exact List.nil_suffix
      · rename_i c t hsw
        have hct : c :: t <:+ l := by rw [← hsw]; exact skip_whitespace_suffix l
        have ht : t <:+ l := (List.suffix_cons c t).trans hct
        split
        · split
          · rename_i r hsw2
            have h125 : 125 :: r <:+ t := by rw [← hsw2]; exact skip_whitespace_suffix t
            exact ((List.suffix_cons 125 r).trans h125).trans ht
          · split
            · rename_i r hm
              exact (rest_of_err hm (ihm _)).trans ((skip_whitespace_suffix t).trans ht)
            · rename_i mes r hm
              exact (rest_of_ok hm (ihm _)).trans ((skip_whitespace_suffix t).trans ht)
        · split
          · split
            · rename_i r hsw2
              have h93 : 93 :: r <:+ t := by rw [← hsw2]; exact skip_whitespace_suffix t
              exact ((List.suffix_cons 93 r).trans h93).trans ht
            · split
              · rename_i r he
                exact (rest_of_err he (ihe _)).trans ((skip_whitespace_suffix t).trans ht)
              · rename_i ees r he
                exact (rest_of_ok he (ihe _)).trans ((skip_whitespace_suffix t).trans ht)
          · split
            · split
              · rename_i r hs
                exact (rest_of_err hs (parse_string_suffix _)).trans hct
              · rename_i s r hs
                exact (rest_of_ok hs (parse_string_suffix _)).trans hct
            · split
              · split
                · rename_i r hs
                  exact (lit_rest_err hs (parse_true_suffix _)).trans hct
                · rename_i r hs
                  exact (lit_rest_ok hs (parse_true_suffix _)).trans hct
              · split
                · split
                  · rename_i r hs
                    exact (lit_rest_err hs (parse_false_suffix _)).trans hct
                  · rename_i r hs
                    exact (lit_rest_ok hs (parse_false_suffix _)).trans hct
                · split
                  · split
                    · rename_i r hs
                      exact (lit_rest_err hs (parse_null_suffix _)).trans hct
                    · rename_i r hs
                      exact (lit_rest_ok hs (parse_null_suffix _)).trans hct
                  · split
                    · rename_i r hs
                      exact (rest_of_err hs (parse_number_suffix _)).trans hct
                    · rename_i raw r hs
                      exact (rest_of_ok hs (parse_number_suffix _)).trans hct
    · intro l
      rw [parse_members.eq_2]
      split
      · rename_i r hps
        exact (rest_of_err hps (parse_string_suffix _)).trans (skip_whitespace_suffix l)
      · rename_i key r1 hps
        have hr1 : r1 <:+ l := (rest_of_ok hps (parse_string_suffix _)).trans
          (skip_whitespace_suffix l)
        split
        · rename_i r2 hsw1
          have hr2 : r2 <:+ l := by
            have h58 : 58 :: r2 <:+ r1 := by rw [← hsw1]; exact skip_whitespace_suffix r1
            exact (((List.suffix_cons 58 r2).trans h58)).trans hr1
          split
          · rename_i r hv
            exact (rest_of_err hv (ihv _)).trans hr2
          · rename_i ves r3 hv
            have hr3 : r3 <:+ l := (rest_of_ok hv (ihv _)).trans hr2
            split
            · rename_i r4 hsw2
              have hr4 : r4 <:+ l := by
                have h44 : 44 :: r4 <:+ r3 := by rw [← hsw2]; exact skip_whitespace_suffix r3
                exact ((List.suffix_cons 44 r4).trans h44).trans hr3
              split
              · rename_i r hm
                exact (rest_of_err hm (ihm _)).trans hr4
              · rename_i mes r5 hm
                exact (rest_of_ok hm (ihm _)).trans hr4
            · rename_i r4 hsw2
              have h125 : 125 :: r4 <:+ r3 := by rw [← hsw2]; exact skip_whitespace_suffix r3
              exact (((List.suffix_cons 125 r4).trans h125)).trans hr3
            · exact (skip_whitespace_suffix r3).trans hr3
        · exact (skip_whitespace_suffix r1).trans hr1
    · intro l
      rw [parse_elements.eq_2]
      split
      · rename_i r hv
        exact rest_of_err hv (ihv l)
      · rename_i ves r1 hv
        have hr1 : r1 <:+ l := rest_of_ok hv (ihv l)
        split
        · rename_i r2 hsw1
          have hr2 : r2 <:+ l := by
            have h44 : 44 :: r2 <:+ r1 := by rw [← hsw1]; exact skip_whitespace_suffix r1
            exact ((List.suffix_cons 44 r2).trans h44).trans hr1
          split
          · rename_i r he
            exact (rest_of_err he (ihe _)).trans hr2
          · rename_i ees r3 he
            exact (rest_of_ok he (ihe _)).trans hr2
        · rename_i r2 hsw1
          have h93 : 93 :: r2 <:+ r1 := by rw [← hsw1]; exact skip_whitespace_suffix r1
          exact ((List.suffix_cons 93 r2).trans h93).trans hr1
        · exact (skip_whitespace_suffix r1).trans hr1

end KFather

namespace KFather

/-- C1: the top-level contract of the range parse.  The empty input fails
with offset 0; whitespace is exactly space, tab, newline and carriage return;
the parse succeeds exactly when one value parse succeeds and skipping
whitespace from its rest reaches the end of the input; and when a
non-whitespace byte remains after the value, the parse fails at that byte's
offset (the remaining bytes being a suffix of the input starting with a
non-whitespace byte). -/
theorem parse_top_level_contract :
    parse ([] : List Nat) = .error 0 ∧
    (∀ c : Nat, isWs c = true ↔ c = 32 ∨ c = 9 ∨ c = 10 ∨ c = 13) ∧
    (∀ (l : List Nat) (es : List Event), parse l = .ok es ↔
      ∃ r, parse_value (2 * l.length + 2) l = .ok (es, r) ∧ skip_whitespace r = []) ∧
    (∀ (l : List Nat) (es : List Event) (r : List Nat) (c : Nat) (t : List Nat),
      parse_value (2 * l.length + 2) l = .ok (es, r) →
      skip_whitespace r = c :: t →
      isWs c = false ∧ (c :: t) <:+ l ∧ parse l = .error (l.length - (c :: t).length)) := by
  refine ⟨rfl, ?_, ?_, ?_⟩
  · intro c
    simp [isWs]
    tauto
  · intro l es
    constructor
    · intro h
      simp only [parse] at h
      split at h
      · simp at h
      · rename_i es' r hv
        split at h
        · rename_i hswr
          injection h with h1
          subst h1
          exact ⟨r, hv, hswr⟩
        · simp at h
    · rintro ⟨r, hv, hswr⟩
      simp only [parse]
      split
      · rename_i r2 hv2
        rw [hv2] at hv
        simp at hv
      · rename_i es' r' hv2
        rw [hv2] at hv
        injection hv with h1
        injection h1 with h1 h2
        subst h1
        subst h2
        simp [hswr]
  · intro l es r c t hv hsw
    refine ⟨skip_whitespace_head_not_ws hsw, ?_, ?_⟩
    · have hr : r <:+ l := rest_of_ok hv ((parse_rest_suffix _).1 l)
      exact (hsw ▸ skip_whitespace_suffix r).trans hr
    · simp only [parse]
      split
      · rename_i r2 hv2
        rw [hv2] at hv
        simp at hv
      · rename_i es' r' hv2
        rw [hv2] at hv
        injection hv with h1
        injection h1 with h1 h2
        subst h1
        subst h2
        simp [hsw]

/-- C1 witness: the contract instantiated on the concrete input consisting of
the digit 1, a space and the letter x: the value parse consumes the digit, and
the parse fails at offset 2, the offset of the non-whitespace byte x. -/
theorem parse_top_level_contract_witness :
    isWs 120 = false ∧ [120] <:+ [49, 32, 120] ∧ parse [49, 32, 120] = .error 2 :=
  parse_top_level_contract.2.2.2 [49, 32, 120] [.num [49]] [32, 120] 120 [] rfl rfl

end KFather

namespace KFather

/-- A successful production of the grammar engine consumes at least one
byte. -/
theorem parse_ok_length (f : Nat) :
    (∀ l es r, parse_value f l = .ok (es, r) → r.length < l.length) ∧
    (∀ l es r, parse_members f l = .ok (es, r) → r.length < l.length) ∧
    (∀ l es r, parse_elements f l = .ok (es, r) → r.length < l.length) := by
  induction f with
  | zero =>
    refine ⟨?_, ?_, ?_⟩ <;> intro l es r h <;>
      simp [parse_value, parse_members, parse_elements] at h
  | succ f ih =>
    obtain ⟨ihv, ihm, ihe⟩ := ih
    refine ⟨?_, ?_, ?_⟩
    · intro l es r h
      rw [parse_value.eq_2] at h
      split at h
      · simp at h
      · rename_i c t hsw
        have hlt : (c :: t).length ≤ l.length := by
          rw [← hsw]
          exact skip_whitespace_length l
        simp only [List.length_cons] at hlt
        split at h
        · split at h
          · rename_i r' hsw2
            have h2 : (125 :: r').length ≤ t.length := by
              rw [← hsw2]
              exact skip_whitespace_length t
            injection h with h1
            injection h1 with h1 h3
            subst h3
            simp only [List.length_cons] at h2
            omega
          · split at h
            · simp at h
            · rename_i mes r' hm
              injection h with h1
              injection h1 with h1 h3
              subst h3
              have h2 := ihm _ _ _ hm
              have h3 : (skip_whitespace t).length ≤ t.length := skip_whitespace_length t
              omega
        · split at h
          · split at h
            · rename_i r' hsw2
              have h2 : (93 :: r').length ≤ t.length := by
                rw [← hsw2]
                exact skip_whitespace_length t
              injection h with h1
              injection h1 with h1 h3
              subst h3
              simp only [List.length_cons] at h2
              omega
            · split at h
              · simp at h
              · rename_i ees r' he
                injection h with h1
                injection h1 with h1 h3
                subst h3
                have h2 := ihe _ _ _ he
                have h3 : (skip_whitespace t).length ≤ t.length := skip_whitespace_length t
                omega
          · split at h
            · split at h
              · simp at h
              · rename_i s r' hs
                injection h with h1
                injection h1 with h1 h3
                subst h3
                have h2 := parse_string_ok_length hs
                simp only [List.length_cons] at h2
                omega
            · split at h
              · split at h
                · simp at h
                · rename_i r' hs
                  injection h with h1
                  injection h1 with h1 h3
                  subst h3
                  have h2 := match_lit_ok_length hs
                  simp only [List.length_cons] at h2
                  omega
              · split at h
                · split at h
                  · simp at h
                  · rename_i r' hs
                    injection h with h1
                    injection h1 with h1 h3
                    subst h3
                    have h2 := match_lit_ok_length hs
                    simp only [List.length_cons] at h2
                    omega
                · split at h
                  · split at h
                    · simp at h
                    · rename_i r' hs
                      injection h with h1
                      injection h1 with h1 h3
                      subst h3
                      have h2 := match_lit_ok_length hs
                      simp only [List.length_cons] at h2
                      omega
                  · split at h
                    · simp at h
                    · rename_i raw r' hs
                      injection h with h1
                      injection h1 with h1 h3
                      subst h3
                      have h2 := parse_number_ok_length hs
                      simp only [List.length_cons] at h2
                      omega
    · intro l es r h
      rw [parse_members.eq_2] at h
      split at h
      · simp at h
      · rename_i key r1 hps
        have h1 : r1.length + 2 ≤ (skip_whitespace l).length := parse_string_ok_length hps
        have h1b : (skip_whitespace l).length ≤ l.length := skip_whitespace_length l
        split at h
        · rename_i r2 hsw1
          have h2 : (58 :: r2).length ≤ r1.length := by
            rw [← hsw1]
            exact skip_whitespace_length r1
          simp only [List.length_cons] at h2
          split at h
          · simp at h
          · rename_i ves r3 hv
            have h3 := ihv _ _ _ hv
            split at h
            · rename_i r4 hsw2
              have h4 : (44 :: r4).length ≤ r3.length := by
                rw [← hsw2]
                exact skip_whitespace_length r3
              simp only [List.length_cons] at h4
              split at h
              · simp at h
              · rename_i mes r5 hm
                have h5 := ihm _ _ _ hm
                injection h with h6
                injection h6 with h6 h7
                subst h7
                omega
            · rename_i r4 hsw2
              have h4 : (125 :: r4).length ≤ r3.length := by
                rw [← hsw2]
                exact skip_whitespace_length r3
              simp only [List.length_cons] at h4
              injection h with h6
              injection h6 with h6 h7
              subst h7
              omega
            · simp at h
        · simp at h
    · intro l es r h
      rw [parse_elements.eq_2] at h
      split at h
      · simp at h
      · rename_i ves r1 hv
        have h1 := ihv _ _ _ hv
        split at h
        · rename_i r2 hsw1
          have h2 : (44 :: r2).length ≤ r1.length := by
            rw [← hsw1]
            exact skip_whitespace_length r1
          simp only [List.length_cons] at h2
          split at h
          · simp at h
          · rename_i ees r3 he
            have h3 := ihe _ _ _ he
            injection h with h6
            injection h6 with h6 h7
            subst h7
            omega
        · rename_i r2 hsw1
          have h2 : (93 :: r2).length ≤ r1.length := by
            rw [← hsw1]
            exact skip_whitespace_length r1
          simp only [List.length_cons] at h2
          injection h with h6
          injection h6 with h6 h7
          subst h7
          omega
        · simp at h

end KFather

namespace KFather

/-- With fuel at least one unit above twice the input length (two for the
element loop), the grammar engine's result does not depend on the fuel. -/
theorem parse_fuel_mono (f : Nat) : ∀ g, f ≤ g →
    (∀ l, 2 * l.length + 1 ≤ f → parse_value f l = parse_value g l) ∧
    (∀ l, 2 * l.length + 1 ≤ f → parse_members f l = parse_members g l) ∧
    (∀ l, 2 * l.length + 2 ≤ f → parse_elements f l = parse_elements g l) := by
  induction f with
  | zero =>
    intro g hg
    refine ⟨?_, ?_, ?_⟩ <;> intro l hb <;> omega
  | succ f ih =>
    intro g hg
    cases g with
    | zero => omega
    | succ g =>
      have hfg : f ≤ g := by omega
      obtain ⟨ihv, ihm, ihe⟩ := ih g hfg
      refine ⟨?_, ?_, ?_⟩
      · intro l hb
        rw [parse_value.eq_2, parse_value.eq_2]
        split
        · rfl
        · rename_i c t hsw
          have hlt : (c :: t).length ≤ l.length := by
            rw [← hsw]
            exact skip_whitespace_length l
          simp only [List.length_cons] at hlt
          have hswt : (skip_whitespace t).length ≤ t.length := skip_whitespace_length t
          split
          · split
            · rfl
            · rw [ihm (skip_whitespace t) (by omega)]
          · split
            · split
              · rfl
              · rw [ihe (skip_whitespace t) (by omega)]
            · rfl
      · intro l hb
        rw [parse_members.eq_2, parse_members.eq_2]
        split
        · rfl
        · rename_i key r1 hps
          have h1 : r1.length + 2 ≤ (skip_whitespace l).length := parse_string_ok_length hps
          have h1b : (skip_whitespace l).length ≤ l.length := skip_whitespace_length l
          split
          · rename_i r2 hsw1
            have h2 : (58 :: r2).length ≤ r1.length := by
              rw [← hsw1]
              exact skip_whitespace_length r1
            simp only [List.length_cons] at h2
            rw [ihv r2 (by omega)]
            split
            · rfl
            · rename_i ves r3 hv
              have h3 := (parse_ok_length g).1 _ _ _ hv
              split
              · rename_i r4 hsw2
                have h4 : (44 :: r4).length ≤ r3.length := by
                  rw [← hsw2]
                  exact skip_whitespace_length r3
                simp only [List.length_cons] at h4
                rw [ihm r4 (by omega)]
              · rfl
              · rfl
          · rfl
      · intro l hb
        rw [parse_elements.eq_2, parse_elements.eq_2]
        rw [ihv l (by omega)]
        split
        · rfl
        · rename_i ves r1 hv
          have h1 := (parse_ok_length g).1 _ _ _ hv
          split
          · rename_i r2 hsw1
            have h2 : (44 :: r2).length ≤ r1.length := by
              rw [← hsw1]
              exact skip_whitespace_length r1
            simp only [List.length_cons] at h2
            rw [ihe r2 (by omega)]
          · rfl
          · rfl

end KFather

namespace KFather

/-- Whitespace skipping that stops at a byte is unchanged when the input is
extended on the right. -/
theorem skip_whitespace_ext {l : List Nat} {c : Nat} {t u : List Nat}
    (h : skip_whitespace l = c :: t) : skip_whitespace (l ++ u) = c :: (t ++ u) := by
  induction l with
  | nil => simp [skip_whitespace] at h
  | cons a s ih =>
    simp only [skip_whitespace] at h
    simp only [List.cons_append, skip_whitespace]
    split at h
    · rename_i hws
      rw [if_pos hws]
      exact ih h
    · rename_i hws
      rw [if_neg hws]
      injection h with h1 h2
      subst h1
      subst h2
      rfl

/-- A successful keyword match is unchanged when the input is extended. -/
theorem match_lit_ext_ok {k l u r : List Nat} (h : match_lit k l = .ok r) :
    match_lit k (l ++ u) = .ok (r ++ u) := by
  induction k generalizing l with
  | nil =>
    simp only [match_lit] at h ⊢
    injection h with h1
    subst h1
    rfl
  | cons a ks ih =>
    cases l with
    | nil => simp [match_lit] at h
    | cons c t =>
      simp only [match_lit, List.cons_append] at h ⊢
      split at h
      · rename_i hc
        rw [if_pos hc]
        exact ih h
      · simp at h

/-- A keyword match failing at a real byte fails the same way when the input
is extended. -/
theorem match_lit_ext_err {k l u r : List Nat} (h : match_lit k l = .error r) (hr : r ≠ []) :
    match_lit k (l ++ u) = .error (r ++ u) := by
  induction k generalizing l with
  | nil => simp [match_lit] at h
  | cons a ks ih =>
    cases l with
    | nil =>
      simp only [match_lit] at h
      injection h with h1
      exact absurd h1.symm hr
    | cons c t =>
      simp only [match_lit, List.cons_append] at h ⊢
      split at h
      · rename_i hc
        rw [if_pos hc]
        exact ih h
      · rename_i hc
        rw [if_neg hc]
        injection h with h1
        subst h1
        rfl

/-- Digit taking that stops at a real byte is unchanged when the input is
extended. -/
theorem takeDigits_ext {l u ds r : List Nat} (h : takeDigits l = (ds, r)) (hr : r ≠ []) :
    takeDigits (l ++ u) = (ds, r ++ u) := by
  induction l generalizing ds with
  | nil =>
    simp only [takeDigits] at h
    injection h with h1 h2
    exact absurd h2.symm hr
  | cons c t ih =>
    simp only [takeDigits, List.cons_append] at h ⊢
    split at h
    · rename_i hd
      rw [if_pos hd]
      injection h with h1 h2
      subst h1
      have h3 : takeDigits (t ++ u) = ((takeDigits t).1, r ++ u) := ih (by rw [← h2])
      show (c :: (takeDigits (t ++ u)).1, (takeDigits (t ++ u)).2) = _
      rw [h3]
    · rename_i hd
      rw [if_neg hd]
      injection h with h1 h2
      subst h1
      subst h2
      rfl

end KFather

namespace KFather

/-- A successful integer-part parse with a nonempty rest is unchanged when
the input is extended. -/
theorem parse_int_part_ext_ok {l u ip r : List Nat} (h : parse_int_part l = .ok (ip, r))
    (hr : r ≠ []) : parse_int_part (l ++ u) = .ok (ip, r ++ u) := by
  cases l with
  | nil => simp [parse_int_part] at h
  | cons c t =>
    simp only [parse_int_part, List.cons_append] at h ⊢
    split at h
    · rename_i hc
      rw [if_pos hc]
      injection h with h1
      injection h1 with h1 h2
      subst h1
      subst h2
      rfl
    · rename_i hc
      rw [if_neg hc]
      split at h
      · rename_i hd
        rw [if_pos hd]
        injection h with h1
        injection h1 with h1 h2
        subst h1
        have h3 : takeDigits (t ++ u) = ((takeDigits t).1, r ++ u) := takeDigits_ext (by rw [← h2]) hr
        show Except.ok (c :: (takeDigits (t ++ u)).1, (takeDigits (t ++ u)).2) = _
        rw [h3]
      · simp at h

/-- An integer-part parse failing at a real byte fails the same way when the
input is extended. -/
theorem parse_int_part_ext_err {l u r : List Nat} (h : parse_int_part l = .error r)
    (hr : r ≠ []) : parse_int_part (l ++ u) = .error (r ++ u) := by
  cases l with
  | nil =>
    simp only [parse_int_part] at h
    injection h with h1
    exact absurd h1.symm hr
  | cons c t =>
    simp only [parse_int_part, List.cons_append] at h ⊢
    split at h
    · simp at h
    · rename_i hc
      rw [if_neg hc]
      split at h
      · simp at h
      · rename_i hd
        rw [if_neg hd]
        injection h with h1
        subst h1
        rfl

/-- A successful fractional-part parse with a nonempty rest is unchanged when
the input is extended. -/
theorem parse_frac_part_ext_ok {l u fp r : List Nat} (h : parse_frac_part l = .ok (fp, r))
    (hr : r ≠ []) : parse_frac_part (l ++ u) = .ok (fp, r ++ u) := by
  cases l with
  | nil =>
    simp only [parse_frac_part] at h
    injection h with h1
    injection h1 with h1 h2
    exact absurd h2.symm hr
  | cons c t =>
    simp only [parse_frac_part, List.cons_append] at h ⊢
    split at h
    · rename_i hc
      rw [if_pos hc]
      cases t with
      | nil => simp at h
      | cons d t2 =>
        simp only [List.cons_append] at h ⊢
        split at h
        · rename_i hd
          rw [if_pos hd]
          injection h with h1
          injection h1 with h1 h2
          subst h1
          have h3 : takeDigits (t2 ++ u) = ((takeDigits t2).1, r ++ u) :=
            takeDigits_ext (by rw [← h2]) hr
          show Except.ok (46 :: d :: (takeDigits (t2 ++ u)).1, (takeDigits (t2 ++ u)).2) = _
          rw [h3]
        · simp at h
    · rename_i hc
      rw [if_neg hc]
      injection h with h1
      injection h1 with h1 h2
      subst h1
      subst h2
      rfl

/-- A fractional-part parse failing at a real byte fails the same way when
the input is extended. -/
theorem parse_frac_part_ext_err {l u r : List Nat} (h : parse_frac_part l = .error r)
    (hr : r ≠ []) : parse_frac_part (l ++ u) = .error (r ++ u) := by
  cases l with
  | nil => simp [parse_frac_part] at h
  | cons c t =>
    simp only [parse_frac_part, List.cons_append] at h ⊢
    split at h
    · rename_i hc
      rw [if_pos hc]
      cases t with
      | nil =>
        injection h with h1
        exact absurd h1.symm hr
      | cons d t2 =>
        simp only [List.cons_append] at h ⊢
        split at h
        · simp at h
        · rename_i hd
          rw [if_neg hd]
          injection h with h1
          subst h1
          rfl
    · simp at h

/-- A successful exponent-part parse with a nonempty rest is unchanged when
the input is extended. -/
theorem parse_exp_part_ext_ok {l u ep r : List Nat} (h : parse_exp_part l = .ok (ep, r))
    (hr : r ≠ []) : parse_exp_part (l ++ u) = .ok (ep, r ++ u) := by
  cases l with
  | nil =>
    simp only [parse_exp_part] at h
    injection h with h1
    injection h1 with h1 h2
    exact absurd h2.symm hr
  | cons c t =>
    simp only [parse_exp_part, List.cons_append] at h ⊢
    split at h
    · rename_i hc
      rw [if_pos hc]
      cases t with
      | nil => simp at h
      | cons s t2 =>
        simp only [List.cons_append] at h ⊢
        split at h
        · rename_i hs
          rw [if_pos hs]
          cases t2 with
          | nil => simp at h
          | cons d t3 =>
            simp only [List.cons_append] at h ⊢
            split at h
            · rename_i hd
              rw [if_pos hd]
              injection h with h1
              injection h1 with h1 h2
              subst h1
              have h3 : takeDigits (t3 ++ u) = ((takeDigits t3).1, r ++ u) :=
                takeDigits_ext (by rw [← h2]) hr
              show Except.ok (c :: s :: d :: (takeDigits (t3 ++ u)).1, (takeDigits (t3 ++ u)).2) = _
              rw [h3]
            · simp at h
        · rename_i hs
          rw [if_neg hs]
          split at h
          · rename_i hd
            rw [if_pos hd]
            injection h with h1
            injection h1 with h1 h2
            subst h1
            have h3 : takeDigits (t2 ++ u) = ((takeDigits t2).1, r ++ u) :=
              takeDigits_ext (by rw [← h2]) hr
            show Except.ok (c :: s :: (takeDigits (t2 ++ u)).1, (takeDigits (t2 ++ u)).2) = _
            rw [h3]
          · simp at h
    · rename_i hc
      rw [if_neg hc]
      injection h with h1
      injection h1 with h1 h2
      subst h1
      subst h2
      rfl

/-- An exponent-part parse failing at a real byte fails the same way when the
input is extended. -/
theorem parse_exp_part_ext_err {l u r : List Nat} (h : parse_exp_part l = .error r)
    (hr : r ≠ []) : parse_exp_part (l ++ u) = .error (r ++ u) := by
  cases l with
  | nil => simp [parse_exp_part] at h
  | cons c t =>
    simp only [parse_exp_part, List.cons_append] at h ⊢
    split at h
    · rename_i hc
      rw [if_pos hc]
      cases t with
      | nil =>
        injection h with h1
        exact absurd h1.symm hr
      | cons s t2 =>
        simp only [List.cons_append] at h ⊢
        split at h
        · rename_i hs
          rw [if_pos hs]
          cases t2 with
          | nil =>
            injection h with h1
            exact absurd h1.symm hr
          | cons d t3 =>
            simp only [List.cons_append] at h ⊢
            split at h
            · simp at h
            · rename_i hd
              rw [if_neg hd]
              injection h with h1
              subst h1
              rfl
        · rename_i hs
          rw [if_neg hs]
          split at h
          · simp at h
          · rename_i hd
            rw [if_neg hd]
            injection h with h1
            subst h1
            rfl
    · simp at h

end KFather

namespace KFather

/-- A list with a nonempty suffix is nonempty. -/
theorem ne_nil_of_suffix {r s : List Nat} (h : r <:+ s) (hr : r ≠ []) : s ≠ [] := by
  intro hs
  subst hs
  exact hr (List.suffix_nil.mp h)

/-- A successful sign-free number parse with a nonempty rest is unchanged
when the input is extended. -/
theorem parse_number_tail_ext_ok {sign s u raw r : List Nat}
    (h : parse_number_tail sign s = .ok (raw, r)) (hr : r ≠ []) :
    parse_number_tail sign (s ++ u) = .ok (raw, r ++ u) := by
  simp only [parse_number_tail] at h ⊢
  split at h
  · simp at h
  · rename_i ip r1 hi
    split at h
    · simp at h
    · rename_i fp r2 hf
      split at h
      · simp at h
      · rename_i ep r3 he
        injection h with h1
        injection h1 with h1 h2
        subst h1
        subst h2
        have hs3 : r3 <:+ r2 := by
          have := parse_exp_part_suffix r2
          rw [he] at this
          exact this
        have hr2 : r2 ≠ [] := ne_nil_of_suffix hs3 hr
        have hs2 : r2 <:+ r1 := by
          have := parse_frac_part_suffix r1
          rw [hf] at this
          exact this
        have hr1 : r1 ≠ [] := ne_nil_of_suffix hs2 hr2
        simp [parse_int_part_ext_ok hi hr1, parse_frac_part_ext_ok hf hr2,
          parse_exp_part_ext_ok he hr]

/-- A sign-free number parse failing at a real byte fails the same way when
the input is extended. -/
theorem parse_number_tail_ext_err {sign s u r : List Nat}
    (h : parse_number_tail sign s = .error r) (hr : r ≠ []) :
    parse_number_tail sign (s ++ u) = .error (r ++ u) := by
  simp only [parse_number_tail] at h ⊢
  split at h
  · rename_i r' hi
    injection h with h1
    subst h1
    simp [parse_int_part_ext_err hi hr]
  · rename_i ip r1 hi
    split at h
    · rename_i r' hf
      injection h with h1
      subst h1
      have hr1 : r1 ≠ [] := by
        intro he
        subst he
        simp [parse_frac_part] at hf
      simp [parse_int_part_ext_ok hi hr1, parse_frac_part_ext_err hf hr]
    · rename_i fp r2 hf
      split at h
      · rename_i r' he
        injection h with h1
        subst h1
        have hr2 : r2 ≠ [] := by
          intro hee
          subst hee
          simp [parse_exp_part] at he
        have hs2 : r2 <:+ r1 := by
          have := parse_frac_part_suffix r1
          rw [hf] at this
          exact this
        have hr1 : r1 ≠ [] := ne_nil_of_suffix hs2 hr2
        simp [parse_int_part_ext_ok hi hr1, parse_frac_part_ext_ok hf hr2,
          parse_exp_part_ext_err he hr]
      · simp at h

/-- A successful number parse with a nonempty rest is unchanged when the
input is extended. -/
theorem parse_number_ext_ok (u : List Nat) {l raw r : List Nat} (h : parse_number l = .ok (raw, r))
    (hr : r ≠ []) : parse_number (l ++ u) = .ok (raw, r ++ u) := by
  cases l with
  | nil => simp [parse_number, parse_number_tail, parse_int_part] at h
  | cons c t =>
    simp only [parse_number, List.cons_append, List.head?_cons, List.tail_cons] at h ⊢
    split at h
    · rename_i hc
      rw [if_pos hc]
      exact parse_number_tail_ext_ok h hr
    · rename_i hc
      rw [if_neg hc]
      exact parse_number_tail_ext_ok h hr

/-- A number parse failing at a real byte fails the same way when the input
is extended. -/
theorem parse_number_ext_err (u : List Nat) {l r : List Nat} (h : parse_number l = .error r)
    (hr : r ≠ []) : parse_number (l ++ u) = .error (r ++ u) := by
  cases l with
  | nil =>
    simp only [parse_number, parse_number_tail, parse_int_part] at h
    injection h with h1
    exact absurd h1.symm hr
  | cons c t =>
    simp only [parse_number, List.cons_append, List.head?_cons, List.tail_cons] at h ⊢
    split at h
    · rename_i hc
      rw [if_pos hc]
      exact parse_number_tail_ext_err h hr
    · rename_i hc
      rw [if_neg hc]
      exact parse_number_tail_ext_err h hr

end KFather

namespace KFather

/-- A successful string-body parse is unchanged when the input is extended:
the body always stops at the closing quote. -/
theorem parse_string_body_ext_ok (ctx : context) (l : List Nat) :
    ∀ u s r, parse_string_body ctx l = .ok (s, r) →
      parse_string_body ctx (l ++ u) = .ok (s, r ++ u) := by
  induction ctx, l using parse_string_body.induct <;> intro u s r h <;>
    simp_all [parse_string_body_cons] <;>
    first
      | rfl
      | (rename_i ih
         exact ih _ _ _ h)
      | (rw [if_neg (by omega : ¬ _ < 32)] at h ⊢
         rename_i ih
         exact ih _ _ _ h)
      | simp [parse_string_body] at h

/-- A string-body parse failing at a real byte fails the same way when the
input is extended. -/
theorem parse_string_body_ext_err (ctx : context) (l : List Nat) :
    ∀ u r, parse_string_body ctx l = .error r → r ≠ [] →
      parse_string_body ctx (l ++ u) = .error (r ++ u) := by
  induction ctx, l using parse_string_body.induct <;> intro u r h hr
  case case1 => exact absurd (by simpa [parse_string_body] using h) hr
  case case21 =>
    rw [List.cons_append, List.cons_append, parse_string_body_cons]
    simp_all [parse_string_body_cons]
    subst h
    simp
  case case22 =>
    rename_i ctx2 c2 t2 h34 h92 hlt
    have e34 : (c2 == 34) = false := by simp; omega
    have e92 : (c2 == 92) = false := by simp; omega
    rw [List.cons_append]
    simp_all [parse_string_body_cons, e34, e92]
    subst h
    simp
  all_goals
    simp_all [parse_string_body_cons] <;>
    first
      | rfl
      | (rename_i ih
         exact ih _ _ h hr)
      | (rw [if_neg (by omega : ¬ _ < 32)] at h ⊢
         rename_i ih
         exact ih _ _ h hr)
      | exact absurd h hr
      | (subst h
         simp_all [List.cons_append])

/-- A successful string-literal parse is unchanged when the input is
extended. -/
theorem parse_string_ext_ok (u : List Nat) {l s r : List Nat} (h : parse_string l = .ok (s, r)) :
    parse_string (l ++ u) = .ok (s, r ++ u) := by
  cases l with
  | nil => simp [parse_string] at h
  | cons c t =>
    simp only [parse_string, List.cons_append] at h ⊢
    split at h
    · rename_i hc
      rw [if_pos hc]
      exact parse_string_body_ext_ok context.init t u s r h
    · simp at h

/-- A string-literal parse failing at a real byte fails the same way when
the input is extended. -/
theorem parse_string_ext_err (u : List Nat) {l r : List Nat} (h : parse_string l = .error r) (hr : r ≠ []) :
    parse_string (l ++ u) = .error (r ++ u) := by
  cases l with
  | nil =>
    simp only [parse_string] at h
    injection h with h1
    exact absurd h1.symm hr
  | cons c t =>
    simp only [parse_string, List.cons_append] at h ⊢
    split at h
    · rename_i hc
      rw [if_pos hc]
      exact parse_string_body_ext_err context.init t u r h hr
    · rename_i hc
      rw [if_neg hc]
      injection h with h1
      subst h1
      rfl

end KFather

namespace KFather

/-- The value production fails at the end on empty input. -/
theorem parse_value_nil (f : Nat) : parse_value f [] = .error [] := by
  cases f with
  | zero => rfl
  | succ f => rfl

/-- The member loop fails at the end on empty input. -/
theorem parse_members_nil (f : Nat) : parse_members f [] = .error [] := by
  cases f with
  | zero => rfl
  | succ f => rfl

/-- The element loop fails at the end on empty input. -/
theorem parse_elements_nil (f : Nat) : parse_elements f [] = .error [] := by
  cases f with
  | zero => rfl
  | succ f => rw [parse_elements.eq_2, parse_value_nil]

/-- One-step unfolding of the value production once leading whitespace has
been skipped to a non-empty rest. -/
theorem parse_value_cons (f : Nat) {l : List Nat} {c : Nat} {t : List Nat}
    (h : skip_whitespace l = c :: t) :
    parse_value (f + 1) l =
      (if c == 123 then
        match skip_whitespace t with
        | 125 :: r => .ok ([.object_start, .object_stop], r)
        | s1 =>
          match parse_members f s1 with
          | .error r => .error r
          | .ok (mes, r) => .ok (.object_start :: mes, r)
      else if c == 91 then
        match skip_whitespace t with
        | 93 :: r => .ok ([.array_start, .array_stop], r)
        | s1 =>
          match parse_elements f s1 with
          | .error r => .error r
          | .ok (ees, r) => .ok (.array_start :: ees, r)
      else if c == 34 then
        match parse_string (c :: t) with
        | .error r => .error r
        | .ok (s, r) => .ok ([.str s], r)
      else if c == 116 then
        match parse_true (c :: t) with
        | .error r => .error r
        | .ok r => .ok ([.boolean true], r)
      else if c == 102 then
        match parse_false (c :: t) with
        | .error r => .error r
        | .ok r => .ok ([.boolean false], r)
      else if c == 110 then
        match parse_null (c :: t) with
        | .error r => .error r
        | .ok r => .ok ([.nullv], r)
      else
        match parse_number (c :: t) with
        | .error r => .error r
        | .ok (raw, r) => .ok ([.num raw], r)) := by
  rw [parse_value.eq_2, h]

/-- Eliminating an extension fact at a known error result. -/
theorem extends_to_elim_err {β : Type} {u : List Nat} {X Y : Except (List Nat) (β × List Nat)}
    {r : List Nat} (hx : X = .error r) (h : extends_to u X Y) (hr : r ≠ []) :
    Y = .error (r ++ u) := by
  subst hx
  exact h hr

/-- Eliminating an extension fact at a known successful result. -/
theorem extends_to_elim_ok {β : Type} {u : List Nat} {X Y : Except (List Nat) (β × List Nat)}
    {a : β} {r : List Nat} (hx : X = .ok (a, r)) (h : extends_to u X Y) (hr : r ≠ []) :
    Y = .ok (a, r ++ u) := by
  subst hx
  exact h hr

/-- A successful parse of the keyword true is unchanged under input
extension. -/
theorem parse_true_ext_ok (u : List Nat) {l r : List Nat} (h : parse_true l = .ok r) :
    parse_true (l ++ u) = .ok (r ++ u) := match_lit_ext_ok h

/-- A failing parse of the keyword true at a real byte is unchanged under
input extension. -/
theorem parse_true_ext_err (u : List Nat) {l r : List Nat} (h : parse_true l = .error r) (hr : r ≠ []) :
    parse_true (l ++ u) = .error (r ++ u) := match_lit_ext_err h hr

/-- A successful parse of the keyword false is unchanged under input
extension. -/
theorem parse_false_ext_ok (u : List Nat) {l r : List Nat} (h : parse_false l = .ok r) :
    parse_false (l ++ u) = .ok (r ++ u) := match_lit_ext_ok h

/-- A failing parse of the keyword false at a real byte is unchanged under
input extension. -/
theorem parse_false_ext_err (u : List Nat) {l r : List Nat} (h : parse_false l = .error r) (hr : r ≠ []) :
    parse_false (l ++ u) = .error (r ++ u) := match_lit_ext_err h hr

/-- A successful parse of the keyword null is unchanged under input
extension. -/
theorem parse_null_ext_ok (u : List Nat) {l r : List Nat} (h : parse_null l = .ok r) :
    parse_null (l ++ u) = .ok (r ++ u) := match_lit_ext_ok h

/-- A failing parse of the keyword null at a real byte is unchanged under
input extension. -/
theorem parse_null_ext_err (u : List Nat) {l r : List Nat} (h : parse_null l = .error r) (hr : r ≠ []) :
    parse_null (l ++ u) = .error (r ++ u) := match_lit_ext_err h hr

/-- An input whose whitespace skip is non-empty is non-empty. -/
theorem ne_nil_of_sw_cons {l : List Nat} {c : Nat} {t : List Nat}
    (h : skip_whitespace l = c :: t) : l ≠ [] := by
  intro hh
  rw [hh] at h
  simp [skip_whitespace] at h

end KFather

namespace KFather

theorem parse_ext (f : Nat) :
    (∀ l u, extends_to u (parse_value f l) (parse_value f (l ++ u))) ∧
    (∀ l u, extends_to u (parse_members f l) (parse_members f (l ++ u))) ∧
    (∀ l u, extends_to u (parse_elements f l) (parse_elements f (l ++ u))) := by
  induction f with
  | zero =>
    refine ⟨?_, ?_, ?_⟩ <;> intro l u <;> exact fun hr => by
      simp [parse_value, parse_members, parse_elements]
  | succ f ih =>
    obtain ⟨ihv, ihm, ihe⟩ := ih
    refine ⟨?_, ?_, ?_⟩
    · intro l u
      cases hswl : skip_whitespace l with
      | nil =>
        have h1 : parse_value (f + 1) l = .error [] := by rw [parse_value.eq_2, hswl]
        rw [h1]
        exact fun hr => absurd rfl hr
      | cons c t =>
        rw [parse_value_cons f hswl, parse_value_cons f (skip_whitespace_ext hswl)]
        split
        · cases hsw2 : skip_whitespace t with
          | nil =>
            simp only [hsw2, parse_members_nil]
            exact fun hr => absurd rfl hr
          | cons d t2 =>
            rw [skip_whitespace_ext hsw2]
            by_cases hd : d = 125
            · subst hd
              exact fun hr => rfl
            · simp [hd]
              cases hm : parse_members f (d :: t2) with
              | error r =>
                intro hr
                have h2 := extends_to_elim_err hm (ihm (d :: t2) u) hr
                simp only [List.cons_append] at h2
                rw [h2]
              | ok p =>
                obtain ⟨mes, r⟩ := p
                intro hr
                have h2 := extends_to_elim_ok hm (ihm (d :: t2) u) hr
                simp only [List.cons_append] at h2
                rw [h2]
        split
        · cases hsw2 : skip_whitespace t with
          | nil =>
            simp only [hsw2, parse_elements_nil]
            exact fun hr => absurd rfl hr
          | cons d t2 =>
            rw [skip_whitespace_ext hsw2]
            by_cases hd : d = 93
            · subst hd
              exact fun hr => rfl
            · simp [hd]
              cases he : parse_elements f (d :: t2) with
              | error r =>
                intro hr
                have h2 := extends_to_elim_err he (ihe (d :: t2) u) hr
                simp only [List.cons_append] at h2
                rw [h2]
              | ok p =>
                obtain ⟨ees, r⟩ := p
                intro hr
                have h2 := extends_to_elim_ok he (ihe (d :: t2) u) hr
                simp only [List.cons_append] at h2
                rw [h2]
        split
        · cases hs : parse_string (c :: t) with
          | error r =>
            intro hr
            have h2 := parse_string_ext_err u hs hr
            simp only [List.cons_append] at h2
            rw [h2]
          | ok p =>
            obtain ⟨s, r⟩ := p
            intro hr
            have h2 := parse_string_ext_ok u hs
            simp only [List.cons_append] at h2
            rw [h2]
        split
        · cases hs : parse_true (c :: t) with
          | error r =>
            intro hr
            have h2 := parse_true_ext_err u hs hr
            simp only [List.cons_append] at h2
            rw [h2]
          | ok r =>
            intro hr
            have h2 := parse_true_ext_ok u hs
            simp only [List.cons_append] at h2
            rw [h2]
        split
        · cases hs : parse_false (c :: t) with
          | error r =>
            intro hr
            have h2 := parse_false_ext_err u hs hr
            simp only [List.cons_append] at h2
            rw [h2]
          | ok r =>
            intro hr
            have h2 := parse_false_ext_ok u hs
            simp only [List.cons_append] at h2
            rw [h2]
        split
        · cases hs : parse_null (c :: t) with
          | error r =>
            intro hr
            have h2 := parse_null_ext_err u hs hr
            simp only [List.cons_append] at h2
            rw [h2]
          | ok r =>
            intro hr
            have h2 := parse_null_ext_ok u hs
            simp only [List.cons_append] at h2
            rw [h2]
        · cases hs : parse_number (c :: t) with
          | error r =>
            intro hr
            have h2 := parse_number_ext_err u hs hr
            simp only [List.cons_append] at h2
            rw [h2]
          | ok p =>
            obtain ⟨raw, r⟩ := p
            intro hr
            have h2 := parse_number_ext_ok u hs hr
            simp only [List.cons_append] at h2
            rw [h2]
    · intro l u
      rw [parse_members.eq_2, parse_members.eq_2]
      cases hswl : skip_whitespace l with
      | nil =>
        simp only [hswl, parse_string]
        exact fun hr => absurd rfl hr
      | cons x xs =>
        rw [skip_whitespace_ext hswl]
        cases hps : parse_string (x :: xs) with
        | error r =>
          intro hr
          have h2 := parse_string_ext_err u hps hr
          simp only [List.cons_append] at h2
          rw [h2]
        | ok p =>
          obtain ⟨key, r1⟩ := p
          have h2 := parse_string_ext_ok u hps
          simp only [List.cons_append] at h2
          rw [h2]
          show extends_to u
            (match skip_whitespace r1 with
             | 58 :: r2 =>
               match parse_value f r2 with
               | .error r => .error r
               | .ok (ves, r3) =>
                 match skip_whitespace r3 with
                 | 44 :: r4 =>
                   match parse_members f r4 with
                   | .error r => .error r
                   | .ok (mes, r5) =>
                     .ok (.str key :: .object_colon :: ves ++ .object_comma :: mes, r5)
                 | 125 :: r4 => .ok (.str key :: .object_colon :: ves ++ [.object_stop], r4)
                 | r => .error r
             | r => .error r)
            (match skip_whitespace (r1 ++ u) with
             | 58 :: r2 =>
               match parse_value f r2 with
               | .error r => .error r
               | .ok (ves, r3) =>
                 match skip_whitespace r3 with
                 | 44 :: r4 =>
                   match parse_members f r4 with
                   | .error r => .error r
                   | .ok (mes, r5) =>
                     .ok (.str key :: .object_colon :: ves ++ .object_comma :: mes, r5)
                 | 125 :: r4 => .ok (.str key :: .object_colon :: ves ++ [.object_stop], r4)
                 | r => .error r
             | r => .error r)
          cases hsw1 : skip_whitespace r1 with
          | nil => exact fun hr => absurd rfl hr
          | cons y ys =>
            rw [skip_whitespace_ext hsw1]
            by_cases hy : y = 58
            · subst hy
              show extends_to u
                (match parse_value f ys with
                 | .error r => .error r
                 | .ok (ves, r3) =>
                   match skip_whitespace r3 with
                   | 44 :: r4 =>
                     match parse_members f r4 with
                     | .error r => .error r
                     | .ok (mes, r5) =>
                       .ok (.str key :: .object_colon :: ves ++ .object_comma :: mes, r5)
                   | 125 :: r4 => .ok (.str key :: .object_colon :: ves ++ [.object_stop], r4)
                   | r => .error r)
                (match parse_value f (ys ++ u) with
                 | .error r => .error r
                 | .ok (ves, r3) =>
                   match skip_whitespace r3 with
                   | 44 :: r4 =>
                     match parse_members f r4 with
                     | .error r => .error r
                     | .ok (mes, r5) =>
                       .ok (.str key :: .object_colon :: ves ++ .object_comma :: mes, r5)
                   | 125 :: r4 => .ok (.str key :: .object_colon :: ves ++ [.object_stop], r4)
                   | r => .error r)
              cases hv : parse_value f ys with
              | error r =>
                intro hr
                rw [extends_to_elim_err hv (ihv ys u) hr]
              | ok p2 =>
                obtain ⟨ves, r3⟩ := p2
                have h3 := ihv ys u
                rw [hv] at h3
                show extends_to u
                  (match skip_whitespace r3 with
                   | 44 :: r4 =>
                     match parse_members f r4 with
                     | .error r => .error r
                     | .ok (mes, r5) =>
                       .ok (.str key :: .object_colon :: ves ++ .object_comma :: mes, r5)
                   | 125 :: r4 => .ok (.str key :: .object_colon :: ves ++ [.object_stop], r4)
                   | r => .error r) _
                cases hsw2 : skip_whitespace r3 with
                | nil => exact fun hr => absurd rfl hr
                | cons z zs =>
                  have hr3 : r3 ≠ [] := ne_nil_of_sw_cons hsw2
                  rw [h3 hr3]
                  show extends_to u _
                    (match skip_whitespace (r3 ++ u) with
                     | 44 :: r4 =>
                       match parse_members f r4 with
                       | .error r => .error r
                       | .ok (mes, r5) =>
                         .ok (.str key :: .object_colon :: ves ++ .object_comma :: mes, r5)
                     | 125 :: r4 => .ok (.str key :: .object_colon :: ves ++ [.object_stop], r4)
                     | r => .error r)
                  rw [skip_whitespace_ext hsw2]
                  by_cases hz44 : z = 44
                  · subst hz44
                    show extends_to u
                      (match parse_members f zs with
                       | .error r => .error r
                       | .ok (mes, r5) =>
                         .ok (.str key :: .object_colon :: ves ++ .object_comma :: mes, r5))
                      (match parse_members f (zs ++ u) with
                       | .error r => .error r
                       | .ok (mes, r5) =>
                         .ok (.str key :: .object_colon :: ves ++ .object_comma :: mes, r5))
                    cases hm : parse_members f zs with
                    | error r =>
                      intro hr
                      rw [extends_to_elim_err hm (ihm zs u) hr]
                    | ok p3 =>
                      obtain ⟨mes, r5⟩ := p3
                      intro hr
                      rw [extends_to_elim_ok hm (ihm zs u) hr]
                  · by_cases hz125 : z = 125
                    · subst hz125
                      exact fun hr => rfl
                    · simp [hz44, hz125, extends_to]
            · simp [hy, extends_to]
    · intro l u
      rw [parse_elements.eq_2, parse_elements.eq_2]
      cases hv : parse_value f l with
      | error r =>
        intro hr
        have h2 := extends_to_elim_err hv (ihv l u) hr
        rw [h2]
      | ok p =>
        obtain ⟨ves, r1⟩ := p
        have h3 := ihv l u
        rw [hv] at h3
        show extends_to u
          (match skip_whitespace r1 with
           | 44 :: r2 =>
             match parse_elements f r2 with
             | .error r => .error r
             | .ok (ees, r3) => .ok (ves ++ .array_comma :: ees, r3)
           | 93 :: r2 => .ok (ves ++ [.array_stop], r2)
           | r => .error r) _
        cases hsw1 : skip_whitespace r1 with
        | nil => exact fun hr => absurd rfl hr
        | cons z zs =>
          have hr1 : r1 ≠ [] := ne_nil_of_sw_cons hsw1
          rw [h3 hr1]
          show extends_to u _
            (match skip_whitespace (r1 ++ u) with
             | 44 :: r2 =>
               match parse_elements f r2 with
               | .error r => .error r
               | .ok (ees, r3) => .ok (ves ++ .array_comma :: ees, r3)
             | 93 :: r2 => .ok (ves ++ [.array_stop], r2)
             | r => .error r)
          rw [skip_whitespace_ext hsw1]
          by_cases hz44 : z = 44
          · subst hz44
            show extends_to u
              (match parse_elements f zs with
               | .error r => .error r
               | .ok (ees, r3) => .ok (ves ++ .array_comma :: ees, r3))
              (match parse_elements f (zs ++ u) with
               | .error r => .error r
               | .ok (ees, r3) => .ok (ves ++ .array_comma :: ees, r3))
            cases he : parse_elements f zs with
            | error r =>
              intro hr
              have h4 := extends_to_elim_err he (ihe zs u) hr
              rw [h4]
            | ok p2 =>
              obtain ⟨ees, r3⟩ := p2
              intro hr
              have h4 := extends_to_elim_ok he (ihe zs u) hr
              rw [h4]
          · by_cases hz93 : z = 93
            · subst hz93
              exact fun hr => rfl
            · simp [hz44, hz93, extends_to]

end KFather

namespace KFather

/-- C6: an invalid strict prefix of a valid document fails with its offset
equal to the prefix length, the reported offset never exceeds the input
length, and on failure the remaining bytes at the error are a suffix of the
input, so the offset genuinely designates a position within it. -/
theorem truncated_prefix_fails_at_end :
    (∀ (P t : List Nat) (es : List Event), parse (P ++ t) = .ok es → t ≠ [] →
      (∀ es', parse P ≠ .ok es') → parse P = .error P.length) ∧
    (∀ (l : List Nat) (e : Nat), parse l = .error e → e ≤ l.length) ∧
    (∀ l : List Nat, rest_of (parse_value (2 * l.length + 2) l) <:+ l) := by
  refine ⟨?_, ?_, ?_⟩
  · intro P t es hD ht hnot
    have hle : 2 * P.length + 2 ≤ 2 * (P ++ t).length + 2 := by
      simp [List.length_append]
    have hmono := (parse_fuel_mono (2 * P.length + 2) (2 * (P ++ t).length + 2) hle).1 P
      (by omega)
    cases hX : parse_value (2 * P.length + 2) P with
    | error r =>
      cases hr : r with
      | nil =>
        simp only [parse]
        rw [hX, hr]
        simp
      | cons a b =>
        exfalso
        have hD' : parse_value (2 * (P ++ t).length + 2) P = .error r := by
          rw [← hmono]
          exact hX
        have hext := (parse_ext (2 * (P ++ t).length + 2)).1 P t
        rw [hD'] at hext
        have h4 := hext (by simp [hr])
        simp only [parse, h4] at hD
        exact Except.noConfusion hD
    | ok p =>
      obtain ⟨es', r⟩ := p
      exfalso
      cases hs2 : skip_whitespace r with
      | nil =>
        apply hnot es'
        simp only [parse]
        rw [hX]
        simp [hs2]
      | cons c t2 =>
        have hrne : r ≠ [] := ne_nil_of_sw_cons hs2
        have hD' : parse_value (2 * (P ++ t).length + 2) P = .ok (es', r) := by
          rw [← hmono]
          exact hX
        have hext := (parse_ext (2 * (P ++ t).length + 2)).1 P t
        rw [hD'] at hext
        have h4 := hext hrne
        have hs3 : skip_whitespace (r ++ t) = c :: (t2 ++ t) := skip_whitespace_ext hs2
        simp only [parse, h4, hs3] at hD
        exact Except.noConfusion hD
  · intro l e h
    simp only [parse] at h
    split at h
    · injection h with h1
      omega
    · split at h
      · simp at h
      · injection h with h1
        omega
  · intro l
    exact (parse_rest_suffix _).1 l

/-- C6 witness: the truncated document consisting of the first six bytes of
the seven-byte minimal object with key a and value 1 fails at offset 6, its
length. -/
theorem truncated_prefix_fails_at_end_witness :
    parse [123, 34, 97, 34, 58, 49] = .error 6 :=
  truncated_prefix_fails_at_end.1 [123, 34, 97, 34, 58, 49] [125]
    [.object_start, .str [97], .object_colon, .num [49], .object_stop] rfl (by decide)
    (fun es' h => by
      rw [show parse [123, 34, 97, 34, 58, 49] = .error 6 from rfl] at h
      exact Except.noConfusion h)

end KFather

namespace KFather

/-- A keyword matches itself followed by anything. -/
theorem match_lit_self (k : List Nat) : ∀ rest, match_lit k (k ++ rest) = .ok rest := by
  induction k with
  | nil => intro rest; rfl
  | cons c ks ih => intro rest; simp [match_lit, ih]

/-- The digit run taken from a digit block followed by a non-digit is exactly
the block. -/
theorem takeDigits_digits (ds : List Nat) : ∀ rest, ds.all isDigit = true →
    nodig rest = true → takeDigits (ds ++ rest) = (ds, rest) := by
  induction ds with
  | nil =>
    intro rest _ hr
    cases rest with
    | nil => rfl
    | cons c t =>
      simp only [nodig, Bool.not_eq_true'] at hr
      simp [takeDigits, hr]
  | cons d ds ih =>
    intro rest hd hr
    simp only [List.all_cons, Bool.and_eq_true] at hd
    simp [takeDigits, hd.1, ih rest hd.2 hr]

/-- The integer part accepts a lone zero. -/
theorem parse_int_part_zero (rest : List Nat) :
    parse_int_part (48 :: rest) = .ok ([48], rest) := by
  simp [parse_int_part]

/-- The integer part accepts a non-zero digit followed by a digit run. -/
theorem parse_int_part_pos {c : Nat} (hd : isDigit c = true) (hz : c ≠ 48)
    (itail rest : List Nat) (ht : itail.all isDigit = true) (hr : nodig rest = true) :
    parse_int_part (c :: (itail ++ rest)) = .ok (c :: itail, rest) := by
  have h48 : (c == 48) = false := by simp [hz]
  simp [parse_int_part, h48, hd, takeDigits_digits itail rest ht hr]

/-- The fractional part accepts a point followed by a digit run. -/
theorem parse_frac_part_some {d : Nat} (hd : isDigit d = true) (ds rest : List Nat)
    (hds : ds.all isDigit = true) (hr : nodig rest = true) :
    parse_frac_part (46 :: d :: (ds ++ rest)) = .ok (46 :: d :: ds, rest) := by
  simp [parse_frac_part, hd, takeDigits_digits ds rest hds hr]

/-- The fractional part is empty when no point follows. -/
theorem parse_frac_part_none {rest : List Nat} (hr : nondot rest = true) :
    parse_frac_part rest = .ok ([], rest) := by
  cases rest with
  | nil => rfl
  | cons c t =>
    simp only [nondot, bne_iff_ne, ne_eq] at hr
    simp [parse_frac_part, hr]

/-- The exponent part accepts a marker, a sign and a digit run. -/
theorem parse_exp_part_sign {m s d : Nat} (hm : m = 101 ∨ m = 69) (hs : s = 43 ∨ s = 45)
    (hd : isDigit d = true) (ds rest : List Nat) (hds : ds.all isDigit = true)
    (hr : nodig rest = true) :
    parse_exp_part (m :: s :: d :: (ds ++ rest)) = .ok (m :: s :: d :: ds, rest) := by
  have hm2 : (m == 101 || m == 69) = true := by rcases hm with h | h <;> simp [h]
  have hs2 : (s == 43 || s == 45) = true := by rcases hs with h | h <;> simp [h]
  simp [parse_exp_part, hm2, hs2, hd, takeDigits_digits ds rest hds hr]

/-- The exponent part accepts a marker and a digit run without a sign. -/
theorem parse_exp_part_nosign {m d : Nat} (hm : m = 101 ∨ m = 69)
    (hd : isDigit d = true) (ds rest : List Nat) (hds : ds.all isDigit = true)
    (hr : nodig rest = true) :
    parse_exp_part (m :: d :: (ds ++ rest)) = .ok (m :: d :: ds, rest) := by
  have hm2 : (m == 101 || m == 69) = true := by rcases hm with h | h <;> simp [h]
  have hd2 : (d == 43 || d == 45) = false := by
    simp only [isDigit, Bool.and_eq_true, decide_eq_true_eq] at hd
    simp only [Bool.or_eq_false_iff, beq_eq_false_iff_ne, ne_eq]
    omega
  simp [parse_exp_part, hm2, hd2, hd, takeDigits_digits ds rest hds hr]

/-- The exponent part is empty when no marker follows. -/
theorem parse_exp_part_none {rest : List Nat} (hr : noexp rest = true) :
    parse_exp_part rest = .ok ([], rest) := by
  cases rest with
  | nil => rfl
  | cons c t =>
    simp only [noexp, Bool.and_eq_true, bne_iff_ne, ne_eq] at hr
    simp [parse_exp_part, hr.1, hr.2]

end KFather

namespace KFather

/-- A well-formed number literal parses back from its source bytes, stopping
exactly at the end when the following byte cannot continue a number. -/
theorem parse_number_render (n : NumLit) (rest : List Nat) (hw : n.wf = true)
    (ht : tail_ok rest = true) :
    parse_number (n.render ++ rest) = .ok (n.render, rest) := by
  simp only [NumLit.wf, Bool.and_eq_true] at hw
  obtain ⟨⟨⟨⟨hd, hzero⟩, hitail⟩, hfrac⟩, hexps⟩ := hw
  have hr_nodig : nodig rest = true := by
    cases rest with
    | nil => rfl
    | cons c t =>
      simp only [tail_ok, Bool.and_eq_true] at ht
      simp [nodig, ht.1.1.1]
  have hr_nodot : nondot rest = true := by
    cases rest with
    | nil => rfl
    | cons c t =>
      simp only [tail_ok, Bool.and_eq_true] at ht
      simp [nondot, ht.1.1.2]
  have hr_noexp : noexp rest = true := by
    cases rest with
    | nil => rfl
    | cons c t =>
      simp only [tail_ok, Bool.and_eq_true] at ht
      simp [noexp, ht.1.2, ht.2]
  have hexp_eq : parse_exp_part (n.expstr ++ rest) = .ok (n.expstr, rest) := by
    cases hx : n.exps with
    | none =>
      simp only [NumLit.expstr, hx, List.nil_append]
      exact parse_exp_part_none hr_noexp
    | some q =>
      obtain ⟨m, sg, d, ds⟩ := q
      rw [hx] at hexps
      simp only [Bool.and_eq_true, Bool.or_eq_true, beq_iff_eq] at hexps
      obtain ⟨⟨⟨hm, hsg⟩, hd2⟩, hds⟩ := hexps
      cases sg with
      | none =>
        simp only [NumLit.expstr, hx, List.nil_append, List.cons_append, List.append_assoc]
        exact parse_exp_part_nosign hm hd2 ds rest hds hr_nodig
      | some s =>
        simp only [Bool.or_eq_true, beq_iff_eq] at hsg
        simp only [NumLit.expstr, hx, List.singleton_append, List.cons_append,
          List.append_assoc]
        exact parse_exp_part_sign hm hsg hd2 ds rest hds hr_nodig
  have hE_nodig : nodig (n.expstr ++ rest) = true := by
    cases hx : n.exps with
    | none => simpa [NumLit.expstr, hx] using hr_nodig
    | some q =>
      obtain ⟨m, sg, d, ds⟩ := q
      rw [hx] at hexps
      simp only [Bool.and_eq_true, Bool.or_eq_true, beq_iff_eq] at hexps
      have hm := hexps.1.1.1
      rcases hm with rfl | rfl <;> simp [NumLit.expstr, hx, nodig, isDigit]
  have hE_nodot : nondot (n.expstr ++ rest) = true := by
    cases hx : n.exps with
    | none => simpa [NumLit.expstr, hx] using hr_nodot
    | some q =>
      obtain ⟨m, sg, d, ds⟩ := q
      rw [hx] at hexps
      simp only [Bool.and_eq_true, Bool.or_eq_true, beq_iff_eq] at hexps
      have hm := hexps.1.1.1
      rcases hm with rfl | rfl <;> simp [NumLit.expstr, hx, nondot]
  have hfrac_eq : parse_frac_part (n.fracstr ++ (n.expstr ++ rest)) =
      .ok (n.fracstr, n.expstr ++ rest) := by
    cases hx : n.frac with
    | none =>
      simp only [NumLit.fracstr, hx, List.nil_append]
      exact parse_frac_part_none hE_nodot
    | some q =>
      obtain ⟨d, ds⟩ := q
      rw [hx] at hfrac
      simp only [Bool.and_eq_true] at hfrac
      simp only [NumLit.fracstr, hx, List.cons_append, List.append_assoc]
      exact parse_frac_part_some hfrac.1 ds (n.expstr ++ rest) hfrac.2 hE_nodig
  have hF_nodig : nodig (n.fracstr ++ (n.expstr ++ rest)) = true := by
    cases hx : n.frac with
    | none => simpa [NumLit.fracstr, hx] using hE_nodig
    | some q =>
      obtain ⟨d, ds⟩ := q
      simp [NumLit.fracstr, hx, nodig, isDigit]
  have hint_eq : parse_int_part (n.intstr ++ (n.fracstr ++ (n.expstr ++ rest))) =
      .ok (n.intstr, n.fracstr ++ (n.expstr ++ rest)) := by
    by_cases h48 : n.ihead = 48
    · have hempty : n.itail = [] := by
        rw [h48] at hzero
        simp only [beq_self_eq_true, Bool.not_true, Bool.false_or,
          List.isEmpty_iff] at hzero
        exact hzero
      simp only [NumLit.intstr, h48, hempty, List.cons_append, List.nil_append]
      exact parse_int_part_zero _
    · simp only [NumLit.intstr, List.cons_append, List.append_assoc]
      exact parse_int_part_pos hd h48 n.itail _ hitail hF_nodig
  have htail_eq : parse_number_tail n.signstr
      (n.intstr ++ (n.fracstr ++ (n.expstr ++ rest))) =
      .ok (n.signstr ++ n.intstr ++ n.fracstr ++ n.expstr, rest) := by
    simp [parse_number_tail, hint_eq, hfrac_eq, hexp_eq]
  have hshape : n.render ++ rest =
      n.signstr ++ (n.intstr ++ (n.fracstr ++ (n.expstr ++ rest))) := by
    simp [NumLit.render, List.append_assoc]
  cases hneg : n.neg with
  | true =>
    have hsign : n.signstr = [45] := by simp [NumLit.signstr, hneg]
    rw [hshape, hsign]
    simp only [List.singleton_append]
    rw [parse_number]
    simp only [List.head?_cons, List.tail_cons, if_pos rfl]
    rw [← hsign, htail_eq]
    simp [NumLit.render, List.append_assoc]
  | false =>
    have hsign : n.signstr = [] := by simp [NumLit.signstr, hneg]
    rw [hshape, hsign]
    simp only [List.nil_append]
    have hhead : n.ihead ≠ 45 := by
      simp only [isDigit, Bool.and_eq_true, decide_eq_true_eq] at hd
      omega
    rw [parse_number]
    simp only [NumLit.intstr, List.cons_append, List.head?_cons, List.tail_cons]
    rw [if_neg (by simp [hhead])]
    have := htail_eq
    rw [hsign] at this
    simp only [List.nil_append] at this
    simp only [NumLit.intstr, List.cons_append, List.append_assoc] at this
    rw [this]
    simp [NumLit.render, hsign, NumLit.intstr, List.append_assoc]

end KFather

namespace KFather

/-- A rendered string-literal body parses back against any decode context,
producing the decoded bytes of the context fed with all items. -/
theorem parse_string_body_render (items : List StrItem) :
    ∀ (ctx : context) (rest : List Nat), items.all StrItem.wf = true →
    parse_string_body ctx (render_items items ++ 34 :: rest) =
      .ok (((items.foldl StrItem.push ctx).end_codepoints).str, rest) := by
  induction items with
  | nil =>
    intro ctx rest _
    have hsh : render_items ([] : List StrItem) ++ 34 :: rest = 34 :: rest := by
      simp [render_items]
    rw [hsh, parse_string_body_cons]
    simp
  | cons it items ih =>
    intro ctx rest hwf
    simp only [List.all_cons, Bool.and_eq_true] at hwf
    obtain ⟨hit, hrest⟩ := hwf
    cases it with
    | raw c =>
      simp only [StrItem.wf, Bool.and_eq_true, decide_eq_true_eq, bne_iff_ne, ne_eq] at hit
      obtain ⟨⟨h32, h34⟩, h92⟩ := hit
      have hsh : render_items (StrItem.raw c :: items) ++ 34 :: rest =
          c :: (render_items items ++ 34 :: rest) := by
        simp [render_items, StrItem.render]
      rw [hsh, parse_string_body_cons]
      have hlt : ¬ c < 32 := by omega
      simp only [beq_iff_eq, if_neg h34, if_neg h92, if_neg hlt]
      exact ih (ctx.push_char c) rest hrest
    | esc e =>
      simp only [StrItem.wf, Bool.or_eq_true, beq_iff_eq] at hit
      have hsh : render_items (StrItem.esc e :: items) ++ 34 :: rest =
          92 :: e :: (render_items items ++ 34 :: rest) := by
        simp [render_items, StrItem.render]
      rw [hsh, parse_string_body_cons]
      rcases hit with (((((((rfl | rfl) | rfl) | rfl) | rfl) | rfl) | rfl) | rfl) <;>
        simpa [StrItem.push, esc_byte] using ih _ rest hrest
    | escU a b c d =>
      simp only [StrItem.wf, Bool.and_eq_true] at hit
      obtain ⟨⟨⟨ha, hb⟩, hc⟩, hd⟩ := hit
      have hsh : render_items (StrItem.escU a b c d :: items) ++ 34 :: rest =
          92 :: 117 :: a :: b :: c :: d :: (render_items items ++ 34 :: rest) := by
        simp [render_items, StrItem.render]
      rw [hsh, parse_string_body_cons]
      simp only [ha, hb, hc, hd, if_true]
      simpa [StrItem.push] using ih _ rest hrest

/-- A rendered string literal parses back from its quoted source bytes. -/
theorem parse_string_render {items : List StrItem} (h : items.all StrItem.wf = true)
    (rest : List Nat) :
    parse_string (34 :: (render_items items ++ 34 :: rest)) = .ok (decode_str items, rest) := by
  simp [parse_string, parse_string_body_render items context.init rest h, decode_str]

/-- A digit byte is not whitespace. -/
theorem digit_not_ws {c : Nat} (h : isDigit c = true) : isWs c = false := by
  simp only [isDigit, Bool.and_eq_true, decide_eq_true_eq] at h
  simp only [isWs, Bool.or_eq_false_iff, beq_eq_false_iff_ne, ne_eq]
  omega

/-- A value-opening byte is not whitespace. -/
theorem value_start_not_ws {c : Nat} (h : value_start c = true) : isWs c = false := by
  simp only [value_start, Bool.or_eq_true, beq_iff_eq] at h
  rcases h with (((((((rfl | rfl) | rfl) | rfl) | rfl) | rfl) | rfl) | h)
  · rfl
  · rfl
  · rfl
  · rfl
  · rfl
  · rfl
  · rfl
  · exact digit_not_ws h

/-- A value-opening byte is neither a closing bracket nor a closing brace. -/
theorem value_start_ne {c : Nat} (h : value_start c = true) : c ≠ 93 ∧ c ≠ 125 := by
  simp only [value_start, Bool.or_eq_true, beq_iff_eq] at h
  rcases h with (((((((rfl | rfl) | rfl) | rfl) | rfl) | rfl) | rfl) | h)
  · exact ⟨by omega, by omega⟩
  · exact ⟨by omega, by omega⟩
  · exact ⟨by omega, by omega⟩
  · exact ⟨by omega, by omega⟩
  · exact ⟨by omega, by omega⟩
  · exact ⟨by omega, by omega⟩
  · exact ⟨by omega, by omega⟩
  · simp only [isDigit, Bool.and_eq_true, decide_eq_true_eq] at h
    exact ⟨by omega, by omega⟩

/-- A whitespace run followed by a separator byte cannot continue a number. -/
theorem tail_ok_sep {w : List Nat} (hw : w.all isWs = true) {c : Nat}
    (hc : c = 44 ∨ c = 93 ∨ c = 125) (t : List Nat) : tail_ok (w ++ c :: t) = true := by
  cases w with
  | nil => rcases hc with rfl | rfl | rfl <;> rfl
  | cons a w2 =>
    simp only [List.all_cons, Bool.and_eq_true] at hw
    have ha := hw.1
    simp only [isWs, Bool.or_eq_true, beq_iff_eq] at ha
    rcases ha with ((rfl | rfl) | rfl) | rfl <;> rfl

end KFather

namespace KFather

/-- The value production ignores pre-skipped whitespace when it has fuel. -/
theorem parse_value_sw (f : Nat) (l : List Nat) :
    parse_value (f + 1) (skip_whitespace l) = parse_value (f + 1) l := by
  rw [parse_value.eq_2, parse_value.eq_2, skip_whitespace_idem]

/-- The member loop ignores pre-skipped whitespace when it has fuel. -/
theorem parse_members_sw (f : Nat) (l : List Nat) :
    parse_members (f + 1) (skip_whitespace l) = parse_members (f + 1) l := by
  rw [parse_members.eq_2, parse_members.eq_2, skip_whitespace_idem]

/-- The element loop ignores pre-skipped whitespace when it has fuel for its
leading value. -/
theorem parse_elements_sw (f : Nat) (l : List Nat) :
    parse_elements (f + 1 + 1) (skip_whitespace l) = parse_elements (f + 1 + 1) l := by
  rw [parse_elements.eq_2, parse_elements.eq_2, parse_value_sw]

/-- The value production ignores a prepended whitespace run. -/
theorem parse_value_ws (f : Nat) {w : List Nat} (hw : ∀ c ∈ w, isWs c = true)
    (l : List Nat) : parse_value (f + 1) (w ++ l) = parse_value (f + 1) l := by
  rw [parse_value.eq_2, parse_value.eq_2, skip_whitespace_ws_append hw]

/-- The member loop ignores a prepended whitespace run. -/
theorem parse_members_ws (f : Nat) {w : List Nat} (hw : ∀ c ∈ w, isWs c = true)
    (l : List Nat) : parse_members (f + 1) (w ++ l) = parse_members (f + 1) l := by
  rw [parse_members.eq_2, parse_members.eq_2, skip_whitespace_ws_append hw]

/-- The element loop ignores a prepended whitespace run. -/
theorem parse_elements_ws (f : Nat) {w : List Nat} (hw : ∀ c ∈ w, isWs c = true)
    (l : List Nat) : parse_elements (f + 1 + 1) (w ++ l) = parse_elements (f + 1 + 1) l := by
  rw [parse_elements.eq_2, parse_elements.eq_2, parse_value_ws f hw]

/-- After whitespace skipping, a rendered document starts with a
value-opening byte. -/
theorem jdoc_sw_shape (d : JDoc) (rest : List Nat) (hw : d.wf = true) :
    ∃ c t, skip_whitespace (d.render ++ rest) = c :: t ∧ value_start c = true := by
  cases d with
  | jnull w =>
    simp only [JDoc.wf] at hw
    refine ⟨110, 117 :: 108 :: 108 :: rest, ?_, by decide⟩
    show skip_whitespace ((w ++ [110, 117, 108, 108]) ++ rest) = _
    rw [List.append_assoc, skip_whitespace_ws_append (List.all_eq_true.mp hw)]
    rfl
  | jtrue w =>
    simp only [JDoc.wf] at hw
    refine ⟨116, 114 :: 117 :: 101 :: rest, ?_, by decide⟩
    show skip_whitespace ((w ++ [116, 114, 117, 101]) ++ rest) = _
    rw [List.append_assoc, skip_whitespace_ws_append (List.all_eq_true.mp hw)]
    rfl
  | jfalse w =>
    simp only [JDoc.wf] at hw
    refine ⟨102, 97 :: 108 :: 115 :: 101 :: rest, ?_, by decide⟩
    show skip_whitespace ((w ++ [102, 97, 108, 115, 101]) ++ rest) = _
    rw [List.append_assoc, skip_whitespace_ws_append (List.all_eq_true.mp hw)]
    rfl
  | jnum w n =>
    simp only [JDoc.wf, Bool.and_eq_true] at hw
    obtain ⟨hw1, hn⟩ := hw
    simp only [NumLit.wf, Bool.and_eq_true] at hn
    have hd := hn.1.1.1.1
    have hsh : JDoc.render (.jnum w n) ++ rest = w ++ (n.render ++ rest) := by
      simp [JDoc.render, List.append_assoc]
    rw [hsh, skip_whitespace_ws_append (List.all_eq_true.mp hw1)]
    cases hneg : n.neg with
    | true =>
      refine ⟨45, n.intstr ++ n.fracstr ++ n.expstr ++ rest, ?_, by decide⟩
      have : n.render ++ rest = 45 :: (n.intstr ++ n.fracstr ++ n.expstr ++ rest) := by
        simp [NumLit.render, NumLit.signstr, hneg, List.append_assoc]
      rw [this]
      rfl
    | false =>
      refine ⟨n.ihead, n.itail ++ n.fracstr ++ n.expstr ++ rest, ?_, by
        simp [value_start, hd]⟩
      have : n.render ++ rest =
          n.ihead :: (n.itail ++ n.fracstr ++ n.expstr ++ rest) := by
        simp [NumLit.render, NumLit.signstr, NumLit.intstr, hneg, List.append_assoc]
      rw [this]
      simp [skip_whitespace, digit_not_ws hd]
  | jstr w items =>
    simp only [JDoc.wf, Bool.and_eq_true] at hw
    refine ⟨34, render_items items ++ 34 :: rest, ?_, by decide⟩
    have hsh : JDoc.render (.jstr w items) ++ rest =
        w ++ (34 :: (render_items items ++ 34 :: rest)) := by
      simp [JDoc.render, List.append_assoc]
    rw [hsh, skip_whitespace_ws_append (List.all_eq_true.mp hw.1)]
    rfl
  | jarr0 w w2 =>
    simp only [JDoc.wf, Bool.and_eq_true] at hw
    refine ⟨91, w2 ++ 93 :: rest, ?_, by decide⟩
    have hsh : JDoc.render (.jarr0 w w2) ++ rest = w ++ (91 :: (w2 ++ 93 :: rest)) := by
      simp [JDoc.render, List.append_assoc]
    rw [hsh, skip_whitespace_ws_append (List.all_eq_true.mp hw.1)]
    rfl
  | jarr w w2 es =>
    simp only [JDoc.wf, Bool.and_eq_true] at hw
    refine ⟨91, w2 ++ (es.render ++ rest), ?_, by decide⟩
    have hsh : JDoc.render (.jarr w w2 es) ++ rest =
        w ++ (91 :: (w2 ++ (es.render ++ rest))) := by
      simp [JDoc.render, List.append_assoc]
    rw [hsh, skip_whitespace_ws_append (List.all_eq_true.mp hw.1.1)]
    rfl
  | jobj0 w w2 =>
    simp only [JDoc.wf, Bool.and_eq_true] at hw
    refine ⟨123, w2 ++ 125 :: rest, ?_, by decide⟩
    have hsh : JDoc.render (.jobj0 w w2) ++ rest = w ++ (123 :: (w2 ++ 125 :: rest)) := by
      simp [JDoc.render, List.append_assoc]
    rw [hsh, skip_whitespace_ws_append (List.all_eq_true.mp hw.1)]
    rfl
  | jobj w w2 ms =>
    simp only [JDoc.wf, Bool.and_eq_true] at hw
    refine ⟨123, w2 ++ (ms.render ++ rest), ?_, by decide⟩
    have hsh : JDoc.render (.jobj w w2 ms) ++ rest =
        w ++ (123 :: (w2 ++ (ms.render ++ rest))) := by
      simp [JDoc.render, List.append_assoc]
    rw [hsh, skip_whitespace_ws_append (List.all_eq_true.mp hw.1.1)]
    rfl

/-- After whitespace skipping, a rendered element list starts with a
value-opening byte. -/
theorem jelems_sw_shape (es : JElems) (rest : List Nat) (hw : es.wf = true) :
    ∃ c t, skip_whitespace (es.render ++ rest) = c :: t ∧ value_start c = true := by
  cases es with
  | last v w =>
    simp only [JElems.wf, Bool.and_eq_true] at hw
    have h := jdoc_sw_shape v ((w ++ [93]) ++ rest) hw.1
    obtain ⟨c, t, h1, h2⟩ := h
    refine ⟨c, t, ?_, h2⟩
    rw [← h1]
    simp [JElems.render, List.append_assoc]
  | more v w es2 =>
    simp only [JElems.wf, Bool.and_eq_true] at hw
    have h := jdoc_sw_shape v ((w ++ 44 :: es2.render) ++ rest) hw.1.1
    obtain ⟨c, t, h1, h2⟩ := h
    refine ⟨c, t, ?_, h2⟩
    rw [← h1]
    simp [JElems.render, List.append_assoc]

/-- After whitespace skipping, a rendered member list starts with the opening
quote of its first key. -/
theorem jmembs_sw_shape (ms : JMembs) (rest : List Nat) (hw : ms.wf = true) :
    ∃ t, skip_whitespace (ms.render ++ rest) = 34 :: t := by
  cases ms with
  | last wk key wc v w =>
    simp only [JMembs.wf, Bool.and_eq_true] at hw
    refine ⟨(render_items key ++ 34 :: (wc ++ 58 :: (v.render ++ (w ++ [125])))) ++ rest, ?_⟩
    have hsh : JMembs.render (.last wk key wc v w) ++ rest =
        wk ++ (34 :: ((render_items key ++ 34 :: (wc ++ 58 :: (v.render ++ (w ++ [125])))) ++ rest)) := by
      simp [JMembs.render, List.append_assoc]
    rw [hsh, skip_whitespace_ws_append (List.all_eq_true.mp hw.1.1.1.1)]
    rfl
  | more wk key wc v w ms2 =>
    simp only [JMembs.wf, Bool.and_eq_true] at hw
    refine ⟨(render_items key ++ 34 :: (wc ++ 58 :: (v.render ++ (w ++ 44 :: ms2.render)))) ++ rest, ?_⟩
    have hsh : JMembs.render (.more wk key wc v w ms2) ++ rest =
        wk ++ (34 :: ((render_items key ++ 34 :: (wc ++ 58 :: (v.render ++ (w ++ 44 :: ms2.render)))) ++ rest)) := by
      simp [JMembs.render, List.append_assoc]
    rw [hsh, skip_whitespace_ws_append (List.all_eq_true.mp hw.1.1.1.1.1)]
    rfl

end KFather

namespace KFather

/-- Value dispatch on an opening brace. -/
theorem parse_value_obj (f : Nat) {l t : List Nat} (h : skip_whitespace l = 123 :: t) :
    parse_value (f + 1) l = (match skip_whitespace t with
      | 125 :: r => .ok ([.object_start, .object_stop], r)
      | s1 => match parse_members f s1 with
        | .error r => .error r
        | .ok (mes, r) => .ok (.object_start :: mes, r)) := by
  rw [parse_value.eq_2, h]
  rfl

/-- Value dispatch on an opening bracket. -/
theorem parse_value_arr (f : Nat) {l t : List Nat} (h : skip_whitespace l = 91 :: t) :
    parse_value (f + 1) l = (match skip_whitespace t with
      | 93 :: r => .ok ([.array_start, .array_stop], r)
      | s1 => match parse_elements f s1 with
        | .error r => .error r
        | .ok (ees, r) => .ok (.array_start :: ees, r)) := by
  rw [parse_value.eq_2, h]
  rfl

/-- Value dispatch on a quote. -/
theorem parse_value_str (f : Nat) {l t : List Nat} (h : skip_whitespace l = 34 :: t) :
    parse_value (f + 1) l = (match parse_string (34 :: t) with
      | .error r => .error r
      | .ok (s, r) => .ok ([.str s], r)) := by
  rw [parse_value.eq_2, h]
  rfl

/-- Value dispatch on the head of the true keyword. -/
theorem parse_value_tru (f : Nat) {l t : List Nat} (h : skip_whitespace l = 116 :: t) :
    parse_value (f + 1) l = (match parse_true (116 :: t) with
      | .error r => .error r
      | .ok r => .ok ([.boolean true], r)) := by
  rw [parse_value.eq_2, h]
  rfl

/-- Value dispatch on the head of the false keyword. -/
theorem parse_value_fal (f : Nat) {l t : List Nat} (h : skip_whitespace l = 102 :: t) :
    parse_value (f + 1) l = (match parse_false (102 :: t) with
      | .error r => .error r
      | .ok r => .ok ([.boolean false], r)) := by
  rw [parse_value.eq_2, h]
  rfl

/-- Value dispatch on the head of the null keyword. -/
theorem parse_value_nul (f : Nat) {l t : List Nat} (h : skip_whitespace l = 110 :: t) :
    parse_value (f + 1) l = (match parse_null (110 :: t) with
      | .error r => .error r
      | .ok r => .ok ([.nullv], r)) := by
  rw [parse_value.eq_2, h]
  rfl

/-- Value dispatch on any other byte: the number production. -/
theorem parse_value_num (f : Nat) {l : List Nat} {c : Nat} {t : List Nat}
    (h : skip_whitespace l = c :: t) (h1 : c ≠ 123) (h2 : c ≠ 91) (h3 : c ≠ 34)
    (h4 : c ≠ 116) (h5 : c ≠ 102) (h6 : c ≠ 110) :
    parse_value (f + 1) l =
      (match parse_number (c :: t) with
      | .error r => .error r
      | .ok (raw, r) => .ok ([.num raw], r)) := by
  rw [parse_value.eq_2, h]
  simp [h1, h2, h3, h4, h5, h6]

end KFather

namespace KFather

/-- Completeness of the parser on rendered well-formed documents, proved for
documents, element lists and member lists simultaneously by induction on a
size bound: given enough fuel, each production consumes exactly its rendered
bytes and emits exactly its event sequence. -/
theorem render_ok_meas : ∀ k : Nat,
    (∀ d : JDoc, sizeOf d < k → ∀ f rest, d.wf = true → tail_ok rest = true →
      2 * (d.render ++ rest).length + 1 ≤ f →
      parse_value f (d.render ++ rest) = .ok (d.events, rest)) ∧
    (∀ es : JElems, sizeOf es < k → ∀ f rest, es.wf = true →
      2 * (es.render ++ rest).length + 2 ≤ f →
      parse_elements f (es.render ++ rest) = .ok (es.events, rest)) ∧
    (∀ ms : JMembs, sizeOf ms < k → ∀ f rest, ms.wf = true →
      2 * (ms.render ++ rest).length + 1 ≤ f →
      parse_members f (ms.render ++ rest) = .ok (ms.events, rest)) := by
  intro k
  induction k with
  | zero =>
    exact ⟨fun d hd => absurd hd (by omega), fun es he => absurd he (by omega),
      fun ms hm => absurd hm (by omega)⟩
  | succ k ih =>
    obtain ⟨ihd, ihe, ihm⟩ := ih
    refine ⟨?_, ?_, ?_⟩
    · intro d hk f rest hwf htail hfuel
      obtain ⟨f2, rfl⟩ : ∃ f2, f = f2 + 1 := ⟨f - 1, by omega⟩
      cases d with
      | jnull w =>
        simp only [JDoc.wf] at hwf
        have hsh : (JDoc.jnull w).render ++ rest =
            w ++ (110 :: 117 :: 108 :: 108 :: rest) := by
          simp [JDoc.render, List.append_assoc]
        have hsw : skip_whitespace ((JDoc.jnull w).render ++ rest) =
            110 :: (117 :: 108 :: 108 :: rest) := by
          rw [hsh, skip_whitespace_ws_append (List.all_eq_true.mp hwf)]
          rfl
        have hlit : parse_null (110 :: 117 :: 108 :: 108 :: rest) = .ok rest :=
          match_lit_self [110, 117, 108, 108] rest
        rw [parse_value_nul f2 hsw]
        simp [hlit, JDoc.events]
      | jtrue w =>
        simp only [JDoc.wf] at hwf
        have hsh : (JDoc.jtrue w).render ++ rest =
            w ++ (116 :: 114 :: 117 :: 101 :: rest) := by
          simp [JDoc.render, List.append_assoc]
        have hsw : skip_whitespace ((JDoc.jtrue w).render ++ rest) =
            116 :: (114 :: 117 :: 101 :: rest) := by
          rw [hsh, skip_whitespace_ws_append (List.all_eq_true.mp hwf)]
          rfl
        have hlit : parse_true (116 :: 114 :: 117 :: 101 :: rest) = .ok rest :=
          match_lit_self [116, 114, 117, 101] rest
        rw [parse_value_tru f2 hsw]
        simp [hlit, JDoc.events]
      | jfalse w =>
        simp only [JDoc.wf] at hwf
        have hsh : (JDoc.jfalse w).render ++ rest =
            w ++ (102 :: 97 :: 108 :: 115 :: 101 :: rest) := by
          simp [JDoc.render, List.append_assoc]
        have hsw : skip_whitespace ((JDoc.jfalse w).render ++ rest) =
            102 :: (97 :: 108 :: 115 :: 101 :: rest) := by
          rw [hsh, skip_whitespace_ws_append (List.all_eq_true.mp hwf)]
          rfl
        have hlit : parse_false (102 :: 97 :: 108 :: 115 :: 101 :: rest) = .ok rest :=
          match_lit_self [102, 97, 108, 115, 101] rest
        rw [parse_value_fal f2 hsw]
        simp [hlit, JDoc.events]
      | jnum w n =>
        simp only [JDoc.wf, Bool.and_eq_true] at hwf
        obtain ⟨hw1, hn⟩ := hwf
        have hd : isDigit n.ihead = true := by
          simp only [NumLit.wf, Bool.and_eq_true] at hn
          exact hn.1.1.1.1
        have hnum := parse_number_render n rest hn htail
        have hsh : (JDoc.jnum w n).render ++ rest = w ++ (n.render ++ rest) := by
          simp [JDoc.render, List.append_assoc]
        cases hneg : n.neg with
        | true =>
          have hr2 : n.render ++ rest =
              45 :: (n.intstr ++ (n.fracstr ++ (n.expstr ++ rest))) := by
            simp [NumLit.render, NumLit.signstr, hneg, List.append_assoc]
          have hsw : skip_whitespace ((JDoc.jnum w n).render ++ rest) =
              45 :: (n.intstr ++ (n.fracstr ++ (n.expstr ++ rest))) := by
            rw [hsh, skip_whitespace_ws_append (List.all_eq_true.mp hw1), hr2]
            rfl
          rw [parse_value_num f2 hsw (by omega) (by omega) (by omega) (by omega)
            (by omega) (by omega)]
          rw [← hr2]
          simp [hnum, JDoc.events]
        | false =>
          have hdb : 48 ≤ n.ihead ∧ n.ihead ≤ 57 := by
            simp only [isDigit, Bool.and_eq_true, decide_eq_true_eq] at hd
            exact hd
          have hr2 : n.render ++ rest =
              n.ihead :: (n.itail ++ (n.fracstr ++ (n.expstr ++ rest))) := by
            simp [NumLit.render, NumLit.signstr, NumLit.intstr, hneg, List.append_assoc]
          have hsw : skip_whitespace ((JDoc.jnum w n).render ++ rest) =
              n.ihead :: (n.itail ++ (n.fracstr ++ (n.expstr ++ rest))) := by
            rw [hsh, skip_whitespace_ws_append (List.all_eq_true.mp hw1), hr2]
            simp [skip_whitespace, digit_not_ws hd]
          rw [parse_value_num f2 hsw (by omega) (by omega) (by omega) (by omega)
            (by omega) (by omega)]
          rw [← hr2]
          simp [hnum, JDoc.events]
      | jstr w items =>
        simp only [JDoc.wf, Bool.and_eq_true] at hwf
        obtain ⟨hw1, hit⟩ := hwf
        have hsh : (JDoc.jstr w items).render ++ rest =
            w ++ (34 :: (render_items items ++ 34 :: rest)) := by
          simp [JDoc.render, List.append_assoc]
        have hsw : skip_whitespace ((JDoc.jstr w items).render ++ rest) =
            34 :: (render_items items ++ 34 :: rest) := by
          rw [hsh, skip_whitespace_ws_append (List.all_eq_true.mp hw1)]
          rfl
        rw [parse_value_str f2 hsw]
        simp [parse_string_render hit rest, JDoc.events]
      | jarr0 w w2 =>
        simp only [JDoc.wf, Bool.and_eq_true] at hwf
        obtain ⟨hw1, hw2⟩ := hwf
        have hsh : (JDoc.jarr0 w w2).render ++ rest =
            w ++ (91 :: (w2 ++ 93 :: rest)) := by
          simp [JDoc.render, List.append_assoc]
        have hsw : skip_whitespace ((JDoc.jarr0 w w2).render ++ rest) =
            91 :: (w2 ++ 93 :: rest) := by
          rw [hsh, skip_whitespace_ws_append (List.all_eq_true.mp hw1)]
          rfl
        have hsw2 : skip_whitespace (w2 ++ 93 :: rest) = 93 :: rest := by
          rw [skip_whitespace_ws_append (List.all_eq_true.mp hw2)]
          rfl
        rw [parse_value_arr f2 hsw]
        simp [hsw2, JDoc.events]
      | jarr w w2 es =>
        simp only [JDoc.wf, Bool.and_eq_true] at hwf
        obtain ⟨⟨hw1, hw2⟩, hes⟩ := hwf
        have hke : sizeOf es < k := by
          have h1 : sizeOf es < sizeOf (JDoc.jarr w w2 es) := by simp
          omega
        have hsh : (JDoc.jarr w w2 es).render ++ rest =
            w ++ (91 :: (w2 ++ (es.render ++ rest))) := by
          simp [JDoc.render, List.append_assoc]
        have hlen := congrArg List.length hsh
        simp only [List.length_append, List.length_cons] at hfuel hlen
        have hsw : skip_whitespace ((JDoc.jarr w w2 es).render ++ rest) =
            91 :: (w2 ++ (es.render ++ rest)) := by
          rw [hsh, skip_whitespace_ws_append (List.all_eq_true.mp hw1)]
          rfl
        obtain ⟨g, rfl⟩ : ∃ g, f2 = g + 1 + 1 := ⟨f2 - 2, by omega⟩
        obtain ⟨c, t, hct, hcs⟩ := jelems_sw_shape es rest hes
        have hsw2 : skip_whitespace (w2 ++ (es.render ++ rest)) = c :: t := by
          rw [skip_whitespace_ws_append (List.all_eq_true.mp hw2), hct]
        have hc93 : ¬ c = 93 := (value_start_ne hcs).1
        have hel : parse_elements (g + 1 + 1) (c :: t) = .ok (es.events, rest) := by
          rw [← hct, parse_elements_sw g (es.render ++ rest)]
          exact ihe es hke (g + 1 + 1) rest hes
            (by simp only [List.length_append, List.length_cons]; omega)
        rw [parse_value_arr (g + 1 + 1) hsw]
        rw [hsw2]
        simp [hc93, hel, JDoc.events]
      | jobj0 w w2 =>
        simp only [JDoc.wf, Bool.and_eq_true] at hwf
        obtain ⟨hw1, hw2⟩ := hwf
        have hsh : (JDoc.jobj0 w w2).render ++ rest =
            w ++ (123 :: (w2 ++ 125 :: rest)) := by
          simp [JDoc.render, List.append_assoc]
        have hsw : skip_whitespace ((JDoc.jobj0 w w2).render ++ rest) =
            123 :: (w2 ++ 125 :: rest) := by
          rw [hsh, skip_whitespace_ws_append (List.all_eq_true.mp hw1)]
          rfl
        have hsw2 : skip_whitespace (w2 ++ 125 :: rest) = 125 :: rest := by
          rw [skip_whitespace_ws_append (List.all_eq_true.mp hw2)]
          rfl
        rw [parse_value_obj f2 hsw]
        simp [hsw2, JDoc.events]
      | jobj w w2 ms =>
        simp only [JDoc.wf, Bool.and_eq_true] at hwf
        obtain ⟨⟨hw1, hw2⟩, hms⟩ := hwf
        have hkm : sizeOf ms < k := by
          have h1 : sizeOf ms < sizeOf (JDoc.jobj w w2 ms) := by simp
          omega
        have hsh : (JDoc.jobj w w2 ms).render ++ rest =
            w ++ (123 :: (w2 ++ (ms.render ++ rest))) := by
          simp [JDoc.render, List.append_assoc]
        have hlen := congrArg List.length hsh
        simp only [List.length_append, List.length_cons] at hfuel hlen
        have hsw : skip_whitespace ((JDoc.jobj w w2 ms).render ++ rest) =
            123 :: (w2 ++ (ms.render ++ rest)) := by
          rw [hsh, skip_whitespace_ws_append (List.all_eq_true.mp hw1)]
          rfl
        obtain ⟨g, rfl⟩ : ∃ g, f2 = g + 1 := ⟨f2 - 1, by omega⟩
        obtain ⟨t, hct⟩ := jmembs_sw_shape ms rest hms
        have hsw2 : skip_whitespace (w2 ++ (ms.render ++ rest)) = 34 :: t := by
          rw [skip_whitespace_ws_append (List.all_eq_true.mp hw2), hct]
        have hmem : parse_members (g + 1) (34 :: t) = .ok (ms.events, rest) := by
          rw [← hct, parse_members_sw g (ms.render ++ rest)]
          exact ihm ms hkm (g + 1) rest hms
            (by simp only [List.length_append, List.length_cons]; omega)
        rw [parse_value_obj (g + 1) hsw]
        rw [hsw2]
        simp [hmem, JDoc.events]
    · intro es hk f rest hwf hfuel
      obtain ⟨f2, rfl⟩ : ∃ f2, f = f2 + 1 := ⟨f - 1, by omega⟩
      cases es with
      | last v w =>
        simp only [JElems.wf, Bool.and_eq_true] at hwf
        obtain ⟨hv, hw⟩ := hwf
        have hkv : sizeOf v < k := by
          have h1 : sizeOf v < sizeOf (JElems.last v w) := by simp; omega
          omega
        have hsh : (JElems.last v w).render ++ rest = v.render ++ (w ++ 93 :: rest) := by
          simp [JElems.render, List.append_assoc]
        have hlen := congrArg List.length hsh
        simp only [List.length_append, List.length_cons] at hfuel hlen
        have htv : tail_ok (w ++ 93 :: rest) = true :=
          tail_ok_sep hw (Or.inr (Or.inl rfl)) rest
        have hval : parse_value f2 (v.render ++ (w ++ 93 :: rest)) =
            .ok (v.events, w ++ 93 :: rest) :=
          ihd v hkv f2 (w ++ 93 :: rest) hv htv
            (by simp only [List.length_append, List.length_cons]; omega)
        have hsw : skip_whitespace (w ++ 93 :: rest) = 93 :: rest := by
          rw [skip_whitespace_ws_append (List.all_eq_true.mp hw)]
          rfl
        rw [parse_elements.eq_2, hsh]
        simp [hval, hsw, JElems.events]
      | more v w es2 =>
        simp only [JElems.wf, Bool.and_eq_true] at hwf
        obtain ⟨⟨hv, hw⟩, hes2⟩ := hwf
        have hkv : sizeOf v < k := by
          have h1 : sizeOf v < sizeOf (JElems.more v w es2) := by simp; omega
          omega
        have hke2 : sizeOf es2 < k := by
          have h1 : sizeOf es2 < sizeOf (JElems.more v w es2) := by simp
          omega
        have hsh : (JElems.more v w es2).render ++ rest =
            v.render ++ (w ++ 44 :: (es2.render ++ rest)) := by
          simp [JElems.render, List.append_assoc]
        have hlen := congrArg List.length hsh
        simp only [List.length_append, List.length_cons] at hfuel hlen
        have htv : tail_ok (w ++ 44 :: (es2.render ++ rest)) = true :=
          tail_ok_sep hw (Or.inl rfl) (es2.render ++ rest)
        have hval : parse_value f2 (v.render ++ (w ++ 44 :: (es2.render ++ rest))) =
            .ok (v.events, w ++ 44 :: (es2.render ++ rest)) :=
          ihd v hkv f2 (w ++ 44 :: (es2.render ++ rest)) hv htv
            (by simp only [List.length_append, List.length_cons]; omega)
        have hsw : skip_whitespace (w ++ 44 :: (es2.render ++ rest)) =
            44 :: (es2.render ++ rest) := by
          rw [skip_whitespace_ws_append (List.all_eq_true.mp hw)]
          rfl
        have hel : parse_elements f2 (es2.render ++ rest) = .ok (es2.events, rest) :=
          ihe es2 hke2 f2 rest hes2
            (by simp only [List.length_append, List.length_cons]; omega)
        rw [parse_elements.eq_2, hsh]
        simp [hval, hsw, hel, JElems.events]
    · intro ms hk f rest hwf hfuel
      obtain ⟨f2, rfl⟩ : ∃ f2, f = f2 + 1 := ⟨f - 1, by omega⟩
      cases ms with
      | last wk key wc v w =>
        simp only [JMembs.wf, Bool.and_eq_true] at hwf
        obtain ⟨⟨⟨⟨hwk, hkey⟩, hwc⟩, hv⟩, hw⟩ := hwf
        have hkv : sizeOf v < k := by
          have h1 : sizeOf v < sizeOf (JMembs.last wk key wc v w) := by simp; omega
          omega
        have hsh : (JMembs.last wk key wc v w).render ++ rest =
            wk ++ (34 :: (render_items key ++ 34 ::
              (wc ++ 58 :: (v.render ++ (w ++ 125 :: rest))))) := by
          simp [JMembs.render, List.append_assoc]
        have hlen := congrArg List.length hsh
        simp only [List.length_append, List.length_cons] at hfuel hlen
        have hsw1 : skip_whitespace ((JMembs.last wk key wc v w).render ++ rest) =
            34 :: (render_items key ++ 34 ::
              (wc ++ 58 :: (v.render ++ (w ++ 125 :: rest)))) := by
          rw [hsh, skip_whitespace_ws_append (List.all_eq_true.mp hwk)]
          rfl
        have hstr := parse_string_render hkey (wc ++ 58 :: (v.render ++ (w ++ 125 :: rest)))
        have hsw2 : skip_whitespace (wc ++ 58 :: (v.render ++ (w ++ 125 :: rest))) =
            58 :: (v.render ++ (w ++ 125 :: rest)) := by
          rw [skip_whitespace_ws_append (List.all_eq_true.mp hwc)]
          rfl
        have htv : tail_ok (w ++ 125 :: rest) = true :=
          tail_ok_sep hw (Or.inr (Or.inr rfl)) rest
        have hval : parse_value f2 (v.render ++ (w ++ 125 :: rest)) =
            .ok (v.events, w ++ 125 :: rest) :=
          ihd v hkv f2 (w ++ 125 :: rest) hv htv
            (by simp only [List.length_append, List.length_cons]; omega)
        have hsw3 : skip_whitespace (w ++ 125 :: rest) = 125 :: rest := by
          rw [skip_whitespace_ws_append (List.all_eq_true.mp hw)]
          rfl
        rw [parse_members.eq_2, hsw1]
        simp [hstr, hsw2, hval, hsw3, JMembs.events]
      | more wk key wc v w ms2 =>
        simp only [JMembs.wf, Bool.and_eq_true] at hwf
        obtain ⟨⟨⟨⟨⟨hwk, hkey⟩, hwc⟩, hv⟩, hw⟩, hms2⟩ := hwf
        have hkv : sizeOf v < k := by
          have h1 : sizeOf v < sizeOf (JMembs.more wk key wc v w ms2) := by simp; omega
          omega
        have hkm2 : sizeOf ms2 < k := by
          have h1 : sizeOf ms2 < sizeOf (JMembs.more wk key wc v w ms2) := by simp
          omega
        have hsh : (JMembs.more wk key wc v w ms2).render ++ rest =
            wk ++ (34 :: (render_items key ++ 34 ::
              (wc ++ 58 :: (v.render ++ (w ++ 44 :: (ms2.render ++ rest)))))) := by
          simp [JMembs.render, List.append_assoc]
        have hlen := congrArg List.length hsh
        simp only [List.length_append, List.length_cons] at hfuel hlen
        have hsw1 : skip_whitespace ((JMembs.more wk key wc v w ms2).render ++ rest) =
            34 :: (render_items key ++ 34 ::
              (wc ++ 58 :: (v.render ++ (w ++ 44 :: (ms2.render ++ rest))))) := by
          rw [hsh, skip_whitespace_ws_append (List.all_eq_true.mp hwk)]
          rfl
        have hstr := parse_string_render hkey
          (wc ++ 58 :: (v.render ++ (w ++ 44 :: (ms2.render ++ rest))))
        have hsw2 : skip_whitespace (wc ++ 58 :: (v.render ++ (w ++ 44 :: (ms2.render ++ rest)))) =
            58 :: (v.render ++ (w ++ 44 :: (ms2.render ++ rest))) := by
          rw [skip_whitespace_ws_append (List.all_eq_true.mp hwc)]
          rfl
        have htv : tail_ok (w ++ 44 :: (ms2.render ++ rest)) = true :=
          tail_ok_sep hw (Or.inl rfl) (ms2.render ++ rest)
        have hval : parse_value f2 (v.render ++ (w ++ 44 :: (ms2.render ++ rest))) =
            .ok (v.events, w ++ 44 :: (ms2.render ++ rest)) :=
          ihd v hkv f2 (w ++ 44 :: (ms2.render ++ rest)) hv htv
            (by simp only [List.length_append, List.length_cons]; omega)
        have hsw3 : skip_whitespace (w ++ 44 :: (ms2.render ++ rest)) =
            44 :: (ms2.render ++ rest) := by
          rw [skip_whitespace_ws_append (List.all_eq_true.mp hw)]
          rfl
        have hmem : parse_members f2 (ms2.render ++ rest) = .ok (ms2.events, rest) :=
          ihm ms2 hkm2 f2 rest hms2
            (by simp only [List.length_append, List.length_cons]; omega)
        rw [parse_members.eq_2, hsw1]
        simp [hstr, hsw2, hval, hsw3, hmem, JMembs.events]

end KFather

namespace KFather

/-- Every successful parse emits a balanced, correctly nested event sequence:
the simultaneous shape invariant for the value, member and element
productions, by induction on fuel. -/
theorem parse_events_shape (f : Nat) :
    (∀ l es r, parse_value f l = .ok (es, r) → ValueEv es) ∧
    (∀ l es r, parse_members f l = .ok (es, r) → MembEv es) ∧
    (∀ l es r, parse_elements f l = .ok (es, r) → ElemEv es) := by
  induction f with
  | zero =>
    refine ⟨?_, ?_, ?_⟩ <;> intro l es r h <;>
      simp [parse_value, parse_members, parse_elements] at h
  | succ f ih =>
    obtain ⟨ihv, ihm, ihe⟩ := ih
    refine ⟨?_, ?_, ?_⟩
    · intro l es r h
      rw [parse_value.eq_2] at h
      split at h
      · simp at h
      · rename_i c t hsw
        split at h
        · split at h
          · rename_i r' hsw2
            injection h with h1
            injection h1 with h1 h3
            subst h1
            exact ValueEv.obj0
          · split at h
            · simp at h
            · rename_i mes r' hm
              injection h with h1
              injection h1 with h1 h3
              subst h1
              exact ValueEv.obj (ihm _ _ _ hm)
        · split at h
          · split at h
            · rename_i r' hsw2
              injection h with h1
              injection h1 with h1 h3
              subst h1
              exact ValueEv.arr0
            · split at h
              · simp at h
              · rename_i ees r' he
                injection h with h1
                injection h1 with h1 h3
                subst h1
                exact ValueEv.arr (ihe _ _ _ he)
          · split at h
            · split at h
              · simp at h
              · rename_i s r' hs
                injection h with h1
                injection h1 with h1 h3
                subst h1
                exact ValueEv.str s
            · split at h
              · split at h
                · simp at h
                · rename_i r' hs
                  injection h with h1
                  injection h1 with h1 h3
                  subst h1
                  exact ValueEv.bool true
              · split at h
                · split at h
                  · simp at h
                  · rename_i r' hs
                    injection h with h1
                    injection h1 with h1 h3
                    subst h1
                    exact ValueEv.bool false
                · split at h
                  · split at h
                    · simp at h
                    · rename_i r' hs
                      injection h with h1
                      injection h1 with h1 h3
                      subst h1
                      exact ValueEv.nullv
                  · split at h
                    · simp at h
                    · rename_i raw r' hs
                      injection h with h1
                      injection h1 with h1 h3
                      subst h1
                      exact ValueEv.num raw
    · intro l es r h
      rw [parse_members.eq_2] at h
      split at h
      · simp at h
      · rename_i key r1 hps
        split at h
        · rename_i r2 hsw1
          split at h
          · simp at h
          · rename_i ves r3 hv
            have hVE := ihv _ _ _ hv
            split at h
            · rename_i r4 hsw2
              split at h
              · simp at h
              · rename_i mes r5 hm
                injection h with h6
                injection h6 with h6 h7
                subst h6
                exact MembEv.more hVE (ihm _ _ _ hm)
            · rename_i r4 hsw2
              injection h with h6
              injection h6 with h6 h7
              subst h6
              exact MembEv.last hVE
            · simp at h
        · simp at h
    · intro l es r h
      rw [parse_elements.eq_2] at h
      split at h
      · simp at h
      · rename_i ves r1 hv
        have hVE := ihv _ _ _ hv
        split at h
        · rename_i r2 hsw1
          split at h
          · simp at h
          · rename_i ees r3 he
            injection h with h6
            injection h6 with h6 h7
            subst h6
            exact ElemEv.more hVE (ihe _ _ _ he)
        · rename_i r2 hsw1
          injection h with h6
          injection h6 with h6 h7
          subst h6
          exact ElemEv.last hVE
        · simp at h

end KFather

namespace KFather

/-- Emptying the whitespace fields of a document does not change its event
sequence, proved together for documents, element lists and member lists by
induction on a size bound. -/
theorem events_strip_meas : ∀ k : Nat,
    (∀ d : JDoc, sizeOf d < k → (JDoc.strip d).events = d.events) ∧
    (∀ es : JElems, sizeOf es < k → (JElems.strip es).events = es.events) ∧
    (∀ ms : JMembs, sizeOf ms < k → (JMembs.strip ms).events = ms.events) := by
  intro k
  induction k with
  | zero =>
    exact ⟨fun d hd => absurd hd (by omega), fun es he => absurd he (by omega),
      fun ms hm => absurd hm (by omega)⟩
  | succ k ih =>
    obtain ⟨ihd, ihe, ihm⟩ := ih
    refine ⟨?_, ?_, ?_⟩
    · intro d hk
      cases d with
      | jnull w => rfl
      | jtrue w => rfl
      | jfalse w => rfl
      | jnum w n => rfl
      | jstr w items => rfl
      | jarr0 w w2 => rfl
      | jarr w w2 es =>
        have hke : sizeOf es < k := by
          have h1 : sizeOf es < sizeOf (JDoc.jarr w w2 es) := by simp
          omega
        simp [JDoc.strip, JDoc.events, ihe es hke]
      | jobj0 w w2 => rfl
      | jobj w w2 ms =>
        have hkm : sizeOf ms < k := by
          have h1 : sizeOf ms < sizeOf (JDoc.jobj w w2 ms) := by simp
          omega
        simp [JDoc.strip, JDoc.events, ihm ms hkm]
    · intro es hk
      cases es with
      | last v w =>
        have hkv : sizeOf v < k := by
          have h1 : sizeOf v < sizeOf (JElems.last v w) := by simp; omega
          omega
        simp [JElems.strip, JElems.events, ihd v hkv]
      | more v w es2 =>
        have hkv : sizeOf v < k := by
          have h1 : sizeOf v < sizeOf (JElems.more v w es2) := by simp; omega
          omega
        have hke2 : sizeOf es2 < k := by
          have h1 : sizeOf es2 < sizeOf (JElems.more v w es2) := by simp
          omega
        simp [JElems.strip, JElems.events, ihd v hkv, ihe es2 hke2]
    · intro ms hk
      cases ms with
      | last wk key wc v w =>
        have hkv : sizeOf v < k := by
          have h1 : sizeOf v < sizeOf (JMembs.last wk key wc v w) := by simp; omega
          omega
        simp [JMembs.strip, JMembs.events, ihd v hkv]
      | more wk key wc v w ms2 =>
        have hkv : sizeOf v < k := by
          have h1 : sizeOf v < sizeOf (JMembs.more wk key wc v w ms2) := by simp; omega
          omega
        have hkm2 : sizeOf ms2 < k := by
          have h1 : sizeOf ms2 < sizeOf (JMembs.more wk key wc v w ms2) := by simp
          omega
        simp [JMembs.strip, JMembs.events, ihd v hkv, ihm ms2 hkm2]

/-- Emptying the whitespace fields of a document does not change its event
sequence. -/
theorem events_strip (d : JDoc) : (JDoc.strip d).events = d.events :=
  (events_strip_meas (sizeOf d + 1)).1 d (by omega)

/-- The value production consumes exactly the source bytes of a well-formed
document at the top-level fuel. -/
theorem parse_value_render_top (d : JDoc) (hw : d.wf = true) :
    parse_value (2 * d.render.length + 2) d.render = .ok (d.events, []) := by
  have h := (render_ok_meas (sizeOf d + 1)).1 d (by omega)
    (2 * d.render.length + 2) [] hw rfl
    (by simp only [List.append_nil]; omega)
  simpa using h

/-- The top-level parse of a well-formed document's source bytes succeeds
with exactly the document's event sequence. -/
theorem parse_render (d : JDoc) (hw : d.wf = true) :
    parse d.render = .ok d.events := by
  simp only [parse, parse_value_render_top d hw]
  rfl

/-- The top-level fuel is insensitive to a prepended whitespace run. -/
theorem parse_value_top_ws {w : List Nat} (hw : ∀ c ∈ w, isWs c = true) (l : List Nat) :
    parse_value (2 * (w ++ l).length + 2) (w ++ l) = parse_value (2 * l.length + 2) l := by
  have h1 : parse_value (2 * (w ++ l).length + 1 + 1) (w ++ l)
      = parse_value (2 * (w ++ l).length + 1 + 1) l := parse_value_ws _ hw l
  have h2 : 2 * (w ++ l).length + 1 + 1 = 2 * (w ++ l).length + 2 := rfl
  rw [h2] at h1
  rw [h1]
  have h3 := (parse_fuel_mono (2 * l.length + 2) (2 * (w ++ l).length + 2)
    (by simp only [List.length_append]; omega)).1 l (by omega)
  exact h3.symm

/-- Prepending a whitespace run never changes the outcome of the top-level
parse: success yields the same events, failure the same error shifted by the
length of the inserted run. -/
theorem parse_ws_prepend {w : List Nat} (hw : ∀ c ∈ w, isWs c = true) (l : List Nat) :
    parse (w ++ l) = (match parse l with
      | .ok es => .ok es
      | .error e => .error (e + w.length)) := by
  have hv := parse_value_top_ws hw l
  simp only [parse, hv]
  cases hres : parse_value (2 * l.length + 2) l with
  | error r =>
    have hsuf : r <:+ l := by
      have := (parse_rest_suffix (2 * l.length + 2)).1 l
      rw [hres] at this
      exact this
    have hrl : r.length ≤ l.length := hsuf.length_le
    simp only [List.length_append]
    congr 1
    omega
  | ok p =>
    obtain ⟨es, r⟩ := p
    have hsuf : r <:+ l := by
      have := (parse_rest_suffix (2 * l.length + 2)).1 l
      rw [hres] at this
      exact this
    cases hr2 : skip_whitespace r with
    | nil => simp [hr2]
    | cons c t =>
      have hsuf2 : (c :: t) <:+ r := by
        rw [← hr2]
        exact skip_whitespace_suffix r
      have hlen : (c :: t).length ≤ l.length := le_trans hsuf2.length_le hsuf.length_le
      simp only [List.length_cons] at hlen
      simp only [hr2, List.length_append, List.length_cons]
      congr 1
      omega

end KFather

namespace KFather

/-- C5: for every syntactically valid JSON document, modelled as a
well-formed `JDoc` covering the full grammar, `parse` of its source bytes
succeeds with exactly the document's event sequence, and that sequence is
balanced and correctly nested in the sense of `ValueEv`: every object-start
is closed by exactly one object-stop at the same nesting depth (likewise
array-start/array-stop), an object of N members emits one key string and one
colon per member with exactly N - 1 separating commas, and events occur in
grammar order. -/
theorem valid_documents_parse_balanced (d : JDoc) (hw : d.wf = true) :
    parse d.render = .ok d.events ∧ ValueEv d.events := by
  refine ⟨parse_render d hw, ?_⟩
  exact (parse_events_shape (2 * d.render.length + 2)).1 d.render d.events []
    (parse_value_render_top d hw)

/-- Witness for C5: the spec's example document `{"x": [1, true, null]}` is
well formed, renders to exactly those bytes, parses successfully, and emits
exactly the spec's event sequence, which is balanced. -/
theorem valid_documents_parse_balanced_witness :
    sample_doc.wf = true ∧
      sample_doc.render = [123, 34, 120, 34, 58, 32, 91, 49, 44, 32, 116, 114,
        117, 101, 44, 32, 110, 117, 108, 108, 93, 125] ∧
      sample_doc.events = [.object_start, .str [120], .object_colon, .array_start,
        .num [49], .array_comma, .boolean true, .array_comma, .nullv, .array_stop,
        .object_stop] ∧
      (parse sample_doc.render = .ok sample_doc.events ∧ ValueEv sample_doc.events) :=
  ⟨rfl, rfl, rfl, valid_documents_parse_balanced sample_doc rfl⟩

/-- C7: whitespace insertion is neutral.  Prepending any whitespace run to
any input (the leading position is whitespace-permitted in every input)
preserves the parse outcome: success with the same events, failure with the
same error shifted by exactly the run's length.  And any two well-formed
documents that differ only in their whitespace fields — the bytes at the
grammar's whitespace-permitted positions — parse to the identical event
sequence. -/
theorem whitespace_insertion_neutral :
    (∀ (w l : List Nat), (∀ c ∈ w, isWs c = true) →
      parse (w ++ l) = (match parse l with
        | .ok es => .ok es
        | .error e => .error (e + w.length))) ∧
    (∀ d d2 : JDoc, d.wf = true → d2.wf = true → JDoc.strip d = JDoc.strip d2 →
      parse d.render = .ok d.events ∧ parse d2.render = .ok d.events) := by
  constructor
  · intro w l hw
    exact parse_ws_prepend hw l
  · intro d d2 h1 h2 h3
    refine ⟨parse_render d h1, ?_⟩
    rw [parse_render d2 h2]
    rw [show d2.events = d.events from by rw [← events_strip d2, ← events_strip d, h3]]

/-- Witness for C7: prepending a space and a newline to the input `1` leaves
the parse successful with the same event, and the documents `null` and
`null` preceded by a space and a tab in the value position parse to the same
event sequence. -/
theorem whitespace_insertion_neutral_witness :
    (∀ c ∈ ([32, 10] : List Nat), isWs c = true) ∧
      parse ([32, 10] ++ [49]) = (match parse [49] with
        | .ok es => .ok es
        | .error e => .error (e + ([32, 10] : List Nat).length)) ∧
      (JDoc.jnull []).wf = true ∧ (JDoc.jnull [32, 9]).wf = true ∧
      JDoc.strip (.jnull []) = JDoc.strip (.jnull [32, 9]) ∧
      (parse (JDoc.jnull []).render = .ok (JDoc.jnull []).events ∧
        parse (JDoc.jnull [32, 9]).render = .ok (JDoc.jnull []).events) :=
  ⟨by decide,
    whitespace_insertion_neutral.1 [32, 10] [49] (by decide),
    rfl, rfl, rfl,
    whitespace_insertion_neutral.2 (.jnull []) (.jnull [32, 9]) rfl rfl rfl⟩

end KFather
